import Mathlib

/-!
# Verification of the manifest-driven package subsystem

A shallow embedding, in Lean 4, of the core of the `graphiti-openclaw`
migration/packaging scripts:

* `scripts/migration_sync_lib.py` — path safety guard and manifest collector;
* `scripts/delta_contracts.py` — schema validators;
* `scripts/state_migration_export.py` — package exporter;
* `scripts/state_migration_import.py` — package importer;
* `scripts/delta_contract_migrate.py` — extension command contract migrator.

Filesystems are modelled as finite lists of regular-file paths, where an
absolute path is a list of its segments from the filesystem root.  JSON
documents are modelled by the inductive type `JValue`, which keeps Python's
`bool`/`int` distinction observable (`isinstance(x, int)` is true for both).
Functions that raise exceptions in Python return `Except String _` here.

Two helpers are imported by the scripts but their defining module is not part
of the sources at hand (`resolve_safe_child` from `migration_sync_lib`, and
`normalize_slug` from `delta_contracts_lib.common`); these are modelled from
the specification and are marked as such in their doc comments.
-/

/-! ## Python-style string primitives -/

/-- Whitespace characters removed by Python's `str.strip()` (ASCII range). -/
def isPySpace (c : Char) : Bool :=
  c = ' ' || c = '\t' || c = '\n' || c = '\r' || c = '\x0b' || c = '\x0c'

/-- Python `str.strip()`: drop leading and trailing whitespace. -/
def pyStrip (s : String) : String :=
  String.mk (((s.data.dropWhile isPySpace).reverse.dropWhile isPySpace).reverse)

/-- Split a character list at every occurrence of `sep` (Python `str.split(sep)`):
`""` splits to `[""]`, separators at the ends produce empty chunks. -/
def splitCharList (sep : Char) : List Char → List (List Char)
  | [] => [[]]
  | c :: rest =>
    match splitCharList sep rest with
    | [] => if c = sep then [[], []] else [[c]]
    | w :: ws => if c = sep then [] :: w :: ws else (c :: w) :: ws

/-- Python `s.split(sep)` for a one-character separator. -/
def splitString (sep : Char) (s : String) : List String :=
  (splitCharList sep s.data).map String.mk

/-- Python `s.split(sep, 1)`: chunk before the first separator, and the
remainder after it when the separator occurs. -/
def splitFirst (sep : Char) : List Char → List Char × Option (List Char)
  | [] => ([], none)
  | c :: rest =>
    if c = sep then ([], some rest)
    else
      match splitFirst sep rest with
      | (a, b) => (c :: a, b)

/-- Lexicographic comparison of character lists by code point, mirroring
Python's string `<=`. -/
def charListLe : List Char → List Char → Bool
  | [], _ => true
  | _ :: _, [] => false
  | a :: as, b :: bs => a < b || (a = b && charListLe as bs)

/-- Python string `<=` (lexicographic by code point). -/
def strLe (a b : String) : Bool :=
  charListLe a.data b.data

/-! ## Path model

An absolute path is its list of segments from the filesystem root; a
filesystem is the list of absolute paths of its regular files. -/

/-- `PurePath.is_absolute()` on POSIX: the string starts with `/`. -/
def isAbsolutePath (s : String) : Bool :=
  match s.data with
  | [] => false
  | c :: _ => c = '/'

/-- `pathlib.PurePath(s).parts` for a relative path: split on `/`, dropping
empty segments and `.` (pathlib normalizes those away); `..` is kept. -/
def pathParts (s : String) : List String :=
  (splitString '/' s).filter (fun seg => !(seg == "" || seg == "."))

/-- `Path.resolve()` dot-dot elimination over already-split segments: `..`
pops the last segment (staying at the root when there is none). -/
def resolveDots (segs : List String) : List String :=
  segs.foldl (fun acc seg => if seg = ".." then acc.dropLast else acc ++ [seg]) []

/-- `root / rel` in pathlib: an absolute `rel` replaces `root` entirely. -/
def joinUnder (root : List String) (rel : String) : List String :=
  if isAbsolutePath rel then pathParts rel else root ++ pathParts rel

/-- `repo_relative` (`migration_sync_lib.py`): `path.relative_to(repo_root)`
rendered POSIX-style; `none` models the `ValueError` raised when `path` is
not under `repo_root`. -/
def repoRelative (candidate root : List String) : Option String :=
  if root.isPrefixOf candidate then
    match candidate.drop root.length with
    | [] => some "."
    | rest => some (String.intercalate "/" rest)
  else
    none

/-! ## Path safety guard (`migration_sync_lib.py`) -/

/-- `ensure_safe_relative(rel_path)`: reject absolute paths and paths with a
`..` segment, otherwise return the normalized parts of the path. -/
def ensure_safe_relative (rel_path : String) : Except String (List String) :=
  if isAbsolutePath rel_path || (pathParts rel_path).contains ".." then
    .error s!"Unsafe package entry path: {rel_path}"
  else
    .ok (pathParts rel_path)

/-- Modelled from the spec: `resolve_safe_child(root, relative, context)`
is imported from `migration_sync_lib` by the import and contract-check
scripts but its definition is not among the sources at hand.  Per the spec it
"composes `safe_relative` with resolution under `root` and fails with the
same error kind, annotated with `context`, when violated". -/
def resolve_safe_child (root : List String) (rel : String) (context : String) :
    Except String (List String) :=
  match ensure_safe_relative rel with
  | .error msg => .error s!"{context}: {msg}"
  | .ok parts => .ok (root ++ parts)

/-! ## fnmatch (Python `fnmatch.fnmatch`, POSIX case-sensitive)

Python's `fnmatch.translate` compiles a pattern into a regular expression
once, then matches; we mirror that by tokenizing the pattern first. -/

/-- Character-class membership for a scanned `[...]` body, with `a-b`
ranges; a trailing `-` is literal. -/
def matchSet : List Char → Char → Bool
  | [], _ => false
  | a :: '-' :: b :: rest, c => (a ≤ c && c ≤ b) || matchSet rest c
  | a :: rest, c => a = c || matchSet rest c

/-- Scan a character class up to the closing `]`; `none` when unclosed. -/
def scanClass : List Char → Option (List Char × List Char)
  | [] => none
  | c :: rest =>
    if c = ']' then some ([], rest)
    else
      match scanClass rest with
      | none => none
      | some (content, after) => some (c :: content, after)

/-- Scan a class body where a leading `]` is literal content
(CPython `fnmatch.translate` behaviour). -/
def scanClassInit (l : List Char) : Option (List Char × List Char) :=
  match l with
  | [] => none
  | c :: rest =>
    if c = ']' then (scanClass rest).map (fun p => (']' :: p.1, p.2))
    else scanClass (c :: rest)

/-- Scan the class body after `[`, honouring an optional leading `!`. -/
def scanNegClass (ps : List Char) : Option (Bool × List Char × List Char) :=
  match ps with
  | [] => none
  | c :: body =>
    if c = '!' then (scanClassInit body).map (fun p => (true, p.1, p.2))
    else (scanClassInit (c :: body)).map (fun p => (false, p.1, p.2))

/-- Pattern tokens of `fnmatch.translate`. -/
inductive GlobTok where
  | star : GlobTok
  | anyChar : GlobTok
  | lit : Char → GlobTok
  | cls : Bool → List Char → GlobTok
deriving Repr, DecidableEq

/-- Tokenize an fnmatch pattern, following `fnmatch.translate`: `*`, `?`,
`[...]` classes with optional `!` negation, unmatched `[` literal.  The
recursion is driven by a fuel counter so that the tokenizer reduces by
kernel computation; each step consumes at least one pattern character, so
`length + 1` fuel always suffices and the zero-fuel fallback is
unreachable. -/
def globTokensF : Nat → List Char → List GlobTok
  | 0, _ => []
  | _ + 1, [] => []
  | fuel + 1, c :: ps =>
    if c = '*' then .star :: globTokensF fuel ps
    else if c = '?' then .anyChar :: globTokensF fuel ps
    else if c = '[' then
      match scanNegClass ps with
      | some (neg, content, after) => .cls neg content :: globTokensF fuel after
      | none => .lit '[' :: globTokensF fuel ps
    else .lit c :: globTokensF fuel ps

/-- Tokenize a whole fnmatch pattern. -/
def globTokens (l : List Char) : List GlobTok :=
  globTokensF (l.length + 1) l

/-- Match a tokenized fnmatch pattern against a whole string (the translated
regex is anchored at both ends): `*` matches an arbitrary prefix, expressed
via `List.tails`. -/
def tokensMatch : List GlobTok → List Char → Bool
  | [], s => s.isEmpty
  | .star :: ts, s => s.tails.any (fun suffixChars => tokensMatch ts suffixChars)
  | .anyChar :: ts, s =>
    match s with
    | [] => false
    | _ :: s' => tokensMatch ts s'
  | .lit c :: ts, s =>
    match s with
    | [] => false
    | d :: s' => (c = d) && tokensMatch ts s'
  | .cls neg content :: ts, s =>
    match s with
    | [] => false
    | d :: s' => (matchSet content d != neg) && tokensMatch ts s'

/-- `fnmatch.fnmatch(name, pattern)` on POSIX (`normcase` is the identity). -/
def fnmatch (name pattern : String) : Bool :=
  tokensMatch (globTokens pattern.data) name.data

/-! ## pathlib glob matching

`Path.glob(pattern)` matches the pattern component-wise against paths under
the root: within one component `*`/`?` cannot cross `/`, and a whole `**`
component matches any number of segments (expressed via `List.tails`). -/

/-- Match glob pattern components against relative path segments. -/
def globSegsMatch : List String → List String → Bool
  | [], segs => segs.isEmpty
  | p :: ps, segs =>
    if p = "**" then
      segs.tails.any (fun rest => globSegsMatch ps rest)
    else
      match segs with
      | [] => false
      | s :: rest => tokensMatch (globTokens p.data) s.data && globSegsMatch ps rest

/-- All files of `fs` under `root` whose relative path matches `pattern`,
rendered as repo-relative POSIX strings: models the
`repo_root.glob(pattern)` loop of `collect_manifest_files` (the glob only
yields paths under the root, and non-files are skipped because `fs` holds
exactly the regular files). -/
def globMatchesIn (fs : List (List String)) (root : List String)
    (pattern : String) : List String :=
  fs.filterMap (fun f =>
    if root.isPrefixOf f then
      if globSegsMatch (pathParts pattern) (f.drop root.length) then
        some (String.intercalate "/" (f.drop root.length))
      else none
    else none)

/-! ## Manifest collector (`collect_manifest_files`, `migration_sync_lib.py`) -/

/-- The required-files loop of `collect_manifest_files` (lines 91-95):
resolve each required path under the repo root, fail when it is not an
existing regular file, and record its repo-relative path.  The `none` case
of `repoRelative` is the `ValueError` that `Path.relative_to` raises for a
path outside the root. -/
def collectRequired (fs : List (List String)) (root : List String) :
    List String → Except String (List String)
  | [] => .ok []
  | rel :: rest =>
    let candidate := resolveDots (joinUnder root rel)
    if fs.contains candidate then
      match repoRelative candidate root with
      | some r =>
        match collectRequired fs root rest with
        | .ok rs => .ok (r :: rs)
        | .error e => .error e
      | none => .error s!"{rel} is not in the subpath of the repository root"
    else
      .error s!"Required manifest file missing: {rel}"

/-- Accumulator worker for `dedupFirst`. -/
def dedupAppend (acc : List String) : List String → List String
  | [] => acc
  | x :: xs => if acc.contains x then dedupAppend acc xs else dedupAppend (acc ++ [x]) xs

/-- Deduplicate keeping first occurrences, as Python dict insertion does
(a re-inserted key keeps its original position; here only the key set and
the subsequent sort matter). -/
def dedupFirst (l : List String) : List String :=
  dedupAppend [] l

/-- Insert into a `strLe`-sorted list. -/
def insertSorted (x : String) : List String → List String
  | [] => [x]
  | y :: ys => if strLe x y then x :: y :: ys else y :: insertSorted x ys

/-- Sort lexicographically, as Python `sorted` with the repo-relative path
as key. -/
def sortStrings (l : List String) : List String :=
  l.foldr insertSorted []

/-- `collect_manifest_files(repo_root, required_files, optional_globs,
exclude_globs)`: required paths are resolved and must exist; optional globs
are expanded under the root keeping regular files; the union is
deduplicated by repo-relative path (dict insertion), exclude globs are
applied with `fnmatch` on the relative path, and the result is sorted by
relative path.  The Python function returns the selected absolute `Path`s
sorted by their repo-relative form; we return those repo-relative forms
(the absolute path is `root ++ pathParts rel`). -/
def collect_manifest_files (fs : List (List String)) (root : List String)
    (required_files optional_globs exclude_globs : List String) :
    Except String (List String) :=
  match collectRequired fs root required_files with
  | .error e => .error e
  | .ok reqRels =>
    .ok (sortStrings
      ((dedupFirst
          (reqRels ++ optional_globs.flatMap (fun pat => globMatchesIn fs root pat))).filter
        (fun rel => !(exclude_globs.any (fun pat => fnmatch rel pat)))))

/-! ## JSON documents

`json.load` produces Python objects; `JValue` models those, keeping the
`bool`/`int` distinction observable because in Python `bool` is a subclass
of `int` (`isinstance(True, int)` holds).  Floats do not occur in the
validated flows modelled here. -/

inductive JValue where
  | null : JValue
  | bool : Bool → JValue
  | int : Int → JValue
  | str : String → JValue
  | list : List JValue → JValue
  | obj : List (String × JValue) → JValue
deriving Repr

/-- Association-list lookup: Python dicts have unique keys, so the first
match is the only one. -/
def objGet (kvs : List (String × JValue)) (k : String) : Option JValue :=
  match kvs with
  | [] => none
  | (k', v) :: rest => if k' = k then some v else objGet rest k

/-- `d.get(k)` on a JSON object (`none` when `d` is not an object). -/
def jGet (m : JValue) (k : String) : Option JValue :=
  match m with
  | .obj kvs => objGet kvs k
  | _ => none

/-- `d.get(k)` with Python's default `None`. -/
def jGetD (m : JValue) (k : String) : JValue :=
  (jGet m k).getD .null

/-- `d[k] = v` on an association list: an existing key is updated in place
(keeping its position), a new key is appended — Python dict semantics. -/
def objSet (kvs : List (String × JValue)) (k : String) (v : JValue) :
    List (String × JValue) :=
  match kvs with
  | [] => [(k, v)]
  | (k', v') :: rest => if k' = k then (k, v) :: rest else (k', v') :: objSet rest k v

/-- `d[k] = v` on a JSON object (no-op on non-objects, which cannot occur
in the modelled flows). -/
def jSet (m : JValue) (k : String) (v : JValue) : JValue :=
  match m with
  | .obj kvs => .obj (objSet kvs k v)
  | _ => m

/-- Python truthiness `bool(x)` for JSON-decoded values. -/
def pyTruthy : JValue → Bool
  | .null => false
  | .bool b => b
  | .int n => n != 0
  | .str s => !s.isEmpty
  | .list xs => !xs.isEmpty
  | .obj kvs => !kvs.isEmpty

/-- Python `str(x)` on JSON-decoded values, as applied to manifest fields.
The composite cases abbreviate Python's repr; they are unreachable in the
verified flows because the fields are type-checked strings before use. -/
def jStr : JValue → String
  | .null => "None"
  | .bool b => if b then "True" else "False"
  | .int n => toString n
  | .str s => s
  | .list _ => "[...]"
  | .obj _ => "\x7b...\x7d"

/-- Python `int(x)` for values that already passed an integer check
(`True` is the integer 1, `False` is 0); other cases do not occur on
validated documents. -/
def asPyInt : JValue → Int
  | .int n => n
  | .bool b => if b then 1 else 0
  | _ => 0

/-! ## Schema validator primitives (`delta_contracts.py`) -/

/-- `_expect_dict`. -/
def expect_dict (v : JValue) (context : String) :
    Except String (List (String × JValue)) :=
  match v with
  | .obj kvs => .ok kvs
  | _ => .error s!"{context} must be an object"

/-- `_expect_str`. -/
def expect_str (v : JValue) (context : String) : Except String String :=
  match v with
  | .str s => .ok s
  | _ => .error s!"{context} must be a string"

/-- `_expect_non_empty_str`: checks the stripped text and returns it. -/
def expect_non_empty_str (v : JValue) (context : String) : Except String String :=
  match expect_str v context with
  | .error e => .error e
  | .ok s =>
    if pyStrip s = "" then .error s!"{context} must be a non-empty string"
    else .ok (pyStrip s)

/-- `_expect_bool`: `isinstance(value, bool)` holds only for actual bools. -/
def expect_bool (v : JValue) (context : String) : Except String Bool :=
  match v with
  | .bool b => .ok b
  | _ => .error s!"{context} must be a boolean"

/-- `_expect_int`: `isinstance(value, int)` is true for Python `bool` too
(`bool` subclasses `int`), so `True` passes as the integer 1.  The result
is the integer value (Python returns the original object, whose numeric
comparisons agree with this). -/
def expect_int (v : JValue) (context : String) (min_value : Option Int) :
    Except String Int :=
  match v with
  | .int _ | .bool _ =>
    match min_value with
    | some m =>
      if asPyInt v < m then .error s!"{context} must be >= {m}"
      else .ok (asPyInt v)
    | none => .ok (asPyInt v)
  | _ => .error s!"{context} must be an integer"

/-- Item loop of `_expect_string_list`. -/
def expect_string_list_items (context : String) :
    Nat → List JValue → Except String (List String)
  | _, [] => .ok []
  | i, v :: rest =>
    match expect_non_empty_str v s!"{context}[{i}]" with
    | .error e => .error e
    | .ok s =>
      match expect_string_list_items context (i + 1) rest with
      | .error e => .error e
      | .ok ss => .ok (s :: ss)

/-- `_expect_string_list`: parses (stripping each item), then applies the
emptiness and uniqueness checks (`len(set(parsed)) != len(parsed)`). -/
def expect_string_list (v : JValue) (context : String)
    (allow_empty unique : Bool) : Except String (List String) :=
  match v with
  | .list items =>
    match expect_string_list_items context 0 items with
    | .error e => .error e
    | .ok parsed =>
      if !allow_empty && parsed.isEmpty then
        .error s!"{context} must not be empty"
      else if unique && parsed.dedup.length != parsed.length then
        .error s!"{context} must not contain duplicates"
      else .ok parsed
  | _ => .error s!"{context} must be a list of strings"

/-- `_validate_glob_patterns`: each pattern must strip non-empty, must not
be absolute, and must not contain a `..` segment. -/
def validate_glob_patterns_from (context : String) :
    Nat → List String → Except String (List String)
  | _, [] => .ok []
  | i, p :: rest =>
    match expect_non_empty_str (.str p) s!"{context}[{i}]" with
    | .error e => .error e
    | .ok stripped =>
      if isAbsolutePath stripped then
        .error s!"{context}[{i}] must be relative (no absolute paths)"
      else if (splitString '/' stripped).contains ".." then
        .error s!"{context}[{i}] must not contain path traversal (`..`)"
      else
        match validate_glob_patterns_from context (i + 1) rest with
        | .error e => .error e
        | .ok ss => .ok (stripped :: ss)

/-! ## `validate_state_migration_manifest` -/

/-- The per-entry `ensure_safe_relative` loop over `required_files`. -/
def validate_state_required_files (context : String) :
    Nat → List String → Except String Unit
  | _, [] => .ok ()
  | i, rel :: rest =>
    match ensure_safe_relative rel with
    | .error e => .error s!"{context}.required_files[{i}] invalid: {e}"
    | .ok _ => validate_state_required_files context (i + 1) rest

/-- `validate_state_migration_manifest(payload, context)`. -/
def validate_state_migration_manifest (payload : JValue) (context : String) :
    Except String JValue := do
  let _ ← expect_dict payload context
  let _ ← expect_int (jGetD payload "version") s!"{context}.version" (some 1)
  let _ ← expect_non_empty_str (jGetD payload "package_name") s!"{context}.package_name"
  let required_files ← expect_string_list (jGetD payload "required_files")
    s!"{context}.required_files" false true
  let _ ← validate_state_required_files context 0 required_files
  let optional_globs ← expect_string_list (jGetD payload "optional_globs")
    s!"{context}.optional_globs" true true
  let _ ← validate_glob_patterns_from s!"{context}.optional_globs" 0 optional_globs
  let exclude_globs ← expect_string_list (jGetD payload "exclude_globs")
    s!"{context}.exclude_globs" true true
  let _ ← validate_glob_patterns_from s!"{context}.exclude_globs" 0 exclude_globs
  return payload

/-! ## `validate_package_manifest` -/

/-- The required top-level keys, in the (alphabetically sorted) order Python
produces for the missing-keys message. -/
def package_required_keys : List String :=
  ["created_at", "dry_run_preview", "entries", "entry_count", "manifest_version",
   "package_name", "package_version", "source_commit", "source_repo"]

/-- The per-entry loop of `validate_package_manifest`: each entry is an
object whose `path` is non-empty and traversal-safe, whose `sha256` is a
64-character hex string after lowercasing, and whose `size_bytes` is a
non-negative integer. -/
def validate_package_entries (context : String) :
    Nat → List JValue → Except String Unit
  | _, [] => .ok ()
  | i, entry :: rest => do
    let _ ← expect_dict entry s!"{context}.entries[{i}]"
    let rel_path ← expect_non_empty_str (jGetD entry "path") s!"{context}.entries[{i}].path"
    match ensure_safe_relative rel_path with
    | .error e => .error s!"{context}.entries[{i}].path invalid: {e}"
    | .ok _ => do
      let digest ← expect_non_empty_str (jGetD entry "sha256")
        s!"{context}.entries[{i}].sha256"
      if digest.length != 64
          || digest.data.any (fun ch => !("0123456789abcdef".data.contains ch.toLower)) then
        .error s!"{context}.entries[{i}].sha256 must be a 64-char hex string"
      else do
        let _ ← expect_int (jGetD entry "size_bytes")
          s!"{context}.entries[{i}].size_bytes" (some 0)
        validate_package_entries context (i + 1) rest

/-- The missing-required-keys error message. -/
def missingKeysMessage (context : String) (missing : List String) : String :=
  s!"{context} missing required keys: " ++ String.intercalate ", " missing

/-- The `entry_count` mismatch message. -/
def countMismatchMessage (context : String) (expected : Int) (found : Nat) : String :=
  s!"{context}.entry_count mismatch: expected {expected}, found {found}"

/-- `validate_package_manifest(payload, context)`. -/
def validate_package_manifest (payload : JValue) (context : String) :
    Except String JValue := do
  let _ ← expect_dict payload context
  match package_required_keys.filter (fun k => (jGet payload k).isNone) with
  | [] => do
    let _ ← expect_int (jGetD payload "package_version") s!"{context}.package_version" (some 1)
    let _ ← expect_int (jGetD payload "manifest_version") s!"{context}.manifest_version" (some 1)
    let _ ← expect_non_empty_str (jGetD payload "package_name") s!"{context}.package_name"
    let _ ← expect_non_empty_str (jGetD payload "created_at") s!"{context}.created_at"
    let _ ← expect_non_empty_str (jGetD payload "source_repo") s!"{context}.source_repo"
    match jGetD payload "source_commit" with
    | .str _ => do
      let _ ← expect_bool (jGetD payload "dry_run_preview") s!"{context}.dry_run_preview"
      match jGetD payload "entries" with
      | .list entries => do
        let expected ← expect_int (jGetD payload "entry_count") s!"{context}.entry_count" (some 0)
        if expected != (entries.length : Int) then
          .error (countMismatchMessage context expected entries.length)
        else do
          let _ ← validate_package_entries context 0 entries
          return payload
      | _ => .error s!"{context}.entries must be a list"
    | _ => .error s!"{context}.source_commit must be a string"
  | missing => .error (missingKeysMessage context missing)

/-! ## `validate_extension_manifest` -/

/-- The entrypoint loop: non-empty keys and values, traversal-safe paths. -/
def validate_extension_entrypoints (context : String) :
    List (String × JValue) → Except String Unit
  | [] => .ok ()
  | (k, v) :: rest => do
    let _ ← expect_non_empty_str (.str k) s!"{context}.entrypoints key"
    let rel_path ← expect_non_empty_str v s!"{context}.entrypoints.{k}"
    match ensure_safe_relative rel_path with
    | .error e => .error s!"{context}.entrypoints.{k} invalid: {e}"
    | .ok _ => validate_extension_entrypoints context rest

/-- `validate_extension_manifest(payload, context)`.  Note it validates
`name`, `version`, `description`, `capabilities` and `entrypoints` but not
`commands` or `command_contract`. -/
def validate_extension_manifest (payload : JValue) (context : String) :
    Except String JValue := do
  let _ ← expect_dict payload context
  let _ ← expect_non_empty_str (jGetD payload "name") s!"{context}.name"
  let _ ← expect_non_empty_str (jGetD payload "version") s!"{context}.version"
  let _ ← (match jGet payload "description" with
    | some .null => Except.ok ""
    | some v => expect_non_empty_str v s!"{context}.description"
    | none => Except.ok "")
  let _ ← expect_string_list (jGetD payload "capabilities") s!"{context}.capabilities"
    false true
  let eps ← expect_dict (jGetD payload "entrypoints") s!"{context}.entrypoints"
  if eps.isEmpty then
    .error s!"{context}.entrypoints must not be empty"
  else do
    let _ ← validate_extension_entrypoints context eps
    return payload

/-! ## Exporter manifest validation (`state_migration_export.py`) -/

/-- Parse a Python list-of-strings, without stripping. -/
def strListOf : List JValue → Option (List String)
  | [] => some []
  | .str s :: rest => (strListOf rest).map (fun ss => s :: ss)
  | _ => none

/-- `isinstance(x, list) and all(isinstance(i, str) for i in x)`. -/
def asStrList (v : JValue) : Option (List String) :=
  match v with
  | .list items => strListOf items
  | _ => none

/-- `_validate_manifest` of `state_migration_export.py`: the exporter's own
lightweight manifest validation.  Note that it checks types only — unlike
`validate_state_migration_manifest` it applies no path-safety or glob
checks — and `isinstance(version, int)` accepts booleans. -/
def export_validate_manifest (manifest : JValue) :
    Except String (List String × List String × List String × Int × String) := do
  let required_files ←
    (match asStrList (jGetD manifest "required_files") with
     | some l => Except.ok l
     | none => Except.error "Manifest field `required_files` must be a list of strings")
  let optional_globs ←
    (match asStrList (jGetD manifest "optional_globs") with
     | some l => Except.ok l
     | none => Except.error "Manifest field `optional_globs` must be a list of strings")
  let exclude_globs ←
    (match asStrList (jGetD manifest "exclude_globs") with
     | some l => Except.ok l
     | none => Except.error "Manifest field `exclude_globs` must be a list of strings")
  let version ←
    (match jGetD manifest "version" with
     | .int n => Except.ok n
     | .bool b => Except.ok (asPyInt (.bool b))
     | _ => Except.error "Manifest field `version` must be an integer")
  let package_name ←
    (match jGet manifest "package_name" with
     | none => Except.ok "graphiti-openclaw-state-migration"
     | some (.str s) =>
       if pyStrip s = "" then
         Except.error "Manifest field `package_name` must be a non-empty string"
       else Except.ok (pyStrip s)
     | some _ => Except.error "Manifest field `package_name` must be a non-empty string")
  return (required_files, optional_globs, exclude_globs, version, package_name)

/-! ## Package importer (`state_migration_import.py`) -/

/-- A regular file with the metadata the importer inspects: absolute path
segments, byte size (`stat().st_size`) and content hash (`sha256_file`). -/
structure FileInfo where
  path : List String
  size : Int
  sha256 : String
deriving Repr, DecidableEq

/-- Look up a regular file by absolute path. -/
def fsLookup (fs : List FileInfo) (p : List String) : Option FileInfo :=
  fs.find? (fun f => f.path == p)

/-- `path.exists()` against the modelled filesystem. -/
def fsHas (fs : List FileInfo) (p : List String) : Bool :=
  fs.any (fun f => f.path == p)

/-- The size-mismatch integrity message. -/
def sizeMismatchMessage (rel : String) (expected got : Int) : String :=
  s!"{rel}: size mismatch (expected {expected}, got {got})"

/-- Results of the entry loop of `state_migration_import.main`:
planned `(src, dst)` writes, conflicts, missing payload entries, and
integrity errors, in entry order. -/
structure ImportScan where
  planned : List (List String × List String)
  conflicts : List String
  missing : List String
  integrity : List String
deriving Repr

/-- The entry loop of `state_migration_import.main` (lines 46-75): each
validated entry is coerced (`str`/`int`), both its payload source and
its import destination pass through the path safety guard, then conflict,
missing-payload and integrity classification happen.  An exception
(`ValueError` from the guard or the entry-shape check) aborts the loop. -/
def import_scan_entries (fs : List FileInfo) (payload_root target_root : List String)
    (allow_overwrite : Bool) : List JValue → Except String ImportScan
  | [] => .ok ⟨[], [], [], []⟩
  | entry :: rest =>
    match entry with
    | .obj _ => do
      let rel := jStr (jGetD entry "path")
      let expected_hash := jStr (jGetD entry "sha256")
      let expected_size := asPyInt (jGetD entry "size_bytes")
      let src ← resolve_safe_child payload_root rel "migration payload entry"
      let dst ← resolve_safe_child target_root rel "migration import target entry"
      let tail ← import_scan_entries fs payload_root target_root allow_overwrite rest
      let conflictsHere := if fsHas fs dst && !allow_overwrite then [rel] else []
      match fsLookup fs src with
      | none =>
        .ok ⟨(src, dst) :: tail.planned, conflictsHere ++ tail.conflicts,
             rel :: tail.missing, tail.integrity⟩
      | some f =>
        .ok ⟨(src, dst) :: tail.planned, conflictsHere ++ tail.conflicts,
             tail.missing,
             (if f.size != expected_size
              then [sizeMismatchMessage rel expected_size f.size] else []) ++
             (if f.sha256 != expected_hash then [s!"{rel}: checksum mismatch"] else []) ++
             tail.integrity⟩
    | _ => .error "Invalid migration entry object in manifest"

/-- `state_migration_import.main` after argument parsing: `doc` is the
parsed `package_manifest.json`, `fs` the filesystem at scan time.  Returns
the process exit code and the destination paths written: `0` success,
`1` import blocked, `2` the top-level exception handler (any `ValueError`,
including the dry-run-preview refusal at lines 108-112, maps to exit 2). -/
def import_main (doc : JValue) (package_root target_root : List String)
    (fs : List FileInfo) (dry_run allow_overwrite : Bool) :
    Nat × List (List String) :=
  match validate_package_manifest doc "package_manifest.json" with
  | .error _ => (2, [])
  | .ok manifest =>
    match jGetD manifest "entries" with
    | .list entries =>
      match import_scan_entries fs (package_root ++ ["payload"]) target_root
          allow_overwrite entries with
      | .error _ => (2, [])
      | .ok scan =>
        if !scan.conflicts.isEmpty && !dry_run then (1, [])
        else if !scan.missing.isEmpty && !dry_run
            && !pyTruthy (jGetD manifest "dry_run_preview") then (1, [])
        else if !scan.integrity.isEmpty && !dry_run then (1, [])
        else if dry_run then (0, [])
        else if pyTruthy (jGetD manifest "dry_run_preview") then (2, [])
        else (0, scan.planned.map Prod.snd)
    | _ => (2, [])

/-! ## Contract checker entrypoint guard (`delta_contract_check.py`) -/

/-- One entrypoint check of `delta_contract_check.main` (lines 92-111): the
relative path passes the safety guard before any existence query; a guard
failure is recorded as an issue without touching the filesystem. -/
def check_entrypoint (fs : List FileInfo) (repo_root : List String)
    (manifest_path rel ctx : String) : Option String :=
  match resolve_safe_child repo_root rel ctx with
  | .error e => some e
  | .ok candidate =>
    if fsHas fs candidate then none
    else some s!"{manifest_path}: entrypoint path missing `{rel}`"

/-! ## Exporter commit lookup (`state_migration_export.py` + `run_git`) -/

/-- A completed `subprocess.run` result. -/
structure CompletedProcess where
  returncode : Int
  stdout : String
deriving Repr, DecidableEq

/-- `run_git(repo_root, *args, check=True)` (`migration_sync_lib.py`):
`subprocess.run` raises `CalledProcessError` when `check` is set and the
command exits non-zero.  The git process outcome is the `result` argument. -/
def run_git (check : Bool) (result : CompletedProcess) :
    Except String CompletedProcess :=
  if check && result.returncode != 0 then
    .error "CalledProcessError: git rev-parse HEAD"
  else
    .ok result

/-- Lines 71-72 of `state_migration_export.py`: the source-commit capture.
`run_git` is called without `check=False`, so the default `check=True`
applies; the `head.returncode == 0` test on line 72 is dead code because a
non-zero return code has already raised. -/
def export_source_commit (git_result : CompletedProcess) : Except String String :=
  match run_git true git_result with
  | .error e => .error e
  | .ok head => .ok (if head.returncode == 0 then pyStrip head.stdout else "")

/-! ## Contract migrator (`delta_contract_migrate.py`)

`normalize_slug` comes from `delta_contracts_lib.common`, which is not
among the sources at hand; it is modelled from the spec below. -/

/-- Join words with a separator. -/
def joinSep (sep : Char) : List (List Char) → List Char
  | [] => []
  | [w] => w
  | w :: ws => w ++ sep :: joinSep sep ws

/-- A lowercase ASCII letter or digit (stated on code points so that
`Char.toLower` reasoning stays arithmetic). -/
def isLowerAlnumChar (c : Char) : Bool :=
  (97 ≤ c.toNat && c.toNat ≤ 122) || (48 ≤ c.toNat && c.toNat ≤ 57)

/-- Modelled from the spec: `normalize_slug` (§4.6): "lower-cased,
non-alphanumeric runs collapsed to a single separator", ASCII-only per the
design notes; the separator is `-` and leading/trailing separators are
dropped, as the spec's examples (`"Doctor Run"` ↦ `doctor-run`, namespace
`sample-extension` kept as-is) show.  An all-symbol input yields the empty
slug — the `NamespaceDerivationError` case.  `slugMapChar` is the
per-character step. -/
def slugMapChar (c : Char) : Char :=
  if c.isAlphanum then c.toLower else ' '

/-- See the doc comment above: lower-case alphanumerics, everything else
becomes a space; spaces delimit the words joined by `-`. -/
def normalize_slug (s : String) : String :=
  String.mk (joinSep '-'
    ((splitCharList ' ' (s.data.map slugMapChar)).filter (fun w => !w.isEmpty)))

/-- Python `str.startswith`. -/
def pyStartsWith (pre s : String) : Bool :=
  pre.data.isPrefixOf s.data

/-- The collision counter loop of `_stable_command_key`
(`delta_contract_migrate.py` lines 41-48), driven by fuel: the candidate at
counter 1 is the bare suffix, later candidates append `-2`, `-3`, ….  The
zero-fuel fallback is unreachable (`seen.length + 1` pairwise-distinct
candidates cannot all be members of `seen`); it is chosen longer than every
member of `seen` so that freshness of the result holds unconditionally. -/
def stableKeyLoop (ns suffix : String) (seen : List String) :
    Nat → Nat → String
  | 0, _ =>
    ns ++ "/" ++ String.mk (List.replicate ((seen.map String.length).sum + 1) 'x')
  | fuel + 1, counter =>
    if seen.contains
        (ns ++ "/" ++ (if counter == 1 then suffix else suffix ++ "-" ++ Nat.repr counter)) then
      stableKeyLoop ns suffix seen fuel (counter + 1)
    else
      ns ++ "/" ++ (if counter == 1 then suffix else suffix ++ "-" ++ Nat.repr counter)

/-- `_stable_command_key(namespace, raw_key, seen)`: slug the raw key
(falling back to `"command"` when the slug is empty) and find the first
free namespaced candidate.  The caller inserts the result into `seen`. -/
def _stable_command_key (ns raw : String) (seen : List String) : String :=
  if normalize_slug raw = "" then
    stableKeyLoop ns "command" seen (seen.length + 1) 1
  else
    stableKeyLoop ns (normalize_slug raw) seen (seen.length + 1) 1

/-- The key computed for one command (`delta_contract_migrate.py` lines
76-83): an already-namespaced key has its suffix re-slugged, any other key
is re-slugged whole and namespaced. -/
def migratedKeyFor (ns key : String) (seen : List String) : String :=
  if pyStartsWith (ns ++ "/") (pyStrip key) then
    _stable_command_key ns
      (String.mk ((splitFirst '/' (pyStrip key).data).2.getD [])) seen
  else
    _stable_command_key ns (pyStrip key) seen

/-- Whether processing one command sets the `changed` flag. -/
def keyChanged (ns key : String) (seen : List String) : Bool :=
  if pyStartsWith (ns ++ "/") (pyStrip key) then
    migratedKeyFor ns key seen != pyStrip key
  else
    true

/-- The per-command loop of `_migrate_extension_manifest` (lines 72-85):
`seen` accumulates assigned keys, `migrated` accumulates the new mapping by
dict insertion, `changed` is the running flag.  Fails when a command value
is not a string (JSON object keys are strings by construction). -/
def migrateCommands (ns : String) :
    List (String × JValue) → List String → List (String × JValue) → Bool →
    Except String (List (String × JValue) × Bool)
  | [], _, migrated, changed => .ok (migrated, changed)
  | (key, v) :: rest, seen, migrated, changed =>
    match v with
    | .str _ =>
      migrateCommands ns rest (migratedKeyFor ns key seen :: seen)
        (objSet migrated (migratedKeyFor ns key seen) v)
        (changed || keyChanged ns key seen)
    | _ => .error "Extension commands must map string keys to string paths"

/-- Python `x == 1` for a JSON value: `1 == 1` and `True == 1` hold
(`bool` is an `int` subclass); everything else compares unequal. -/
def jEqOne : JValue → Bool
  | .int n => n == 1
  | .bool b => b
  | _ => false

/-- `str(manifest.get('name', '')).strip()`. -/
def extensionNameOf (manifest : JValue) : String :=
  pyStrip (jStr ((jGet manifest "name").getD (.str "")))

/-- The namespace slug derived from the extension name. -/
def derivedNamespace (manifest : JValue) : String :=
  normalize_slug (extensionNameOf manifest)

/-- Lines 61-66: an existing `command_contract` is valid when it is an
object with `version == 1` whose `namespace` strips to the derived one. -/
def contractValid (manifest : JValue) (ns : String) : Bool :=
  match jGetD manifest "command_contract" with
  | .obj cc =>
    jEqOne ((objGet cc "version").getD .null)
      && (pyStrip (jStr ((objGet cc "namespace").getD (.str ""))) == ns)
  | _ => false

/-- The in-place mutation of lines 87-93: stamp `command_contract`, then
replace `commands`. -/
def migratedManifest (manifest : JValue) (ns : String)
    (migrated : List (String × JValue)) : JValue :=
  jSet (jSet manifest "command_contract"
    (.obj [("version", .int 1), ("namespace", .str ns)])) "commands"
    (.obj migrated)

/-- `_migrate_extension_manifest(manifest) -> (manifest, changed)`
(`delta_contract_migrate.py` lines 51-96): no-op without a non-empty
`commands` dict; `NamespaceDerivationError` (a `ValueError`) when the name
slugs to nothing; otherwise re-key every command, stamp the contract when
anything changed or the existing record is invalid, and re-validate. -/
def _migrate_extension_manifest (manifest : JValue) :
    Except String (JValue × Bool) :=
  match jGetD manifest "commands" with
  | .obj commands =>
    if commands.isEmpty then .ok (manifest, false)
    else if derivedNamespace manifest = "" then
      .error "Cannot derive namespace from extension name"
    else
      match migrateCommands (derivedNamespace manifest) commands [] [] false with
      | .error e => .error e
      | .ok (migrated, changed) =>
        if changed || !contractValid manifest (derivedNamespace manifest) then
          match validate_extension_manifest
              (migratedManifest manifest (derivedNamespace manifest) migrated)
              "migrated extension manifest" with
          | .error e => .error e
          | .ok _ =>
            .ok (migratedManifest manifest (derivedNamespace manifest) migrated, true)
        else
          match validate_extension_manifest manifest "migrated extension manifest" with
          | .error e => .error e
          | .ok _ => .ok (manifest, changed)
  | _ => .ok (manifest, false)

/-- The batch loop of `delta_contract_migrate.main` (lines 120-133) over
the extension directories (in sorted order) that carry a `manifest.json`:
returns the paths needing migration and the number inspected.  There is no
per-manifest exception handling: a `ValueError` raised for one manifest
propagates and aborts the whole run (the top-level handler exits 2). -/
def migrate_batch : List (String × JValue) → Except String (List String × Nat)
  | [] => .ok ([], 0)
  | (path, payload) :: rest =>
    match _migrate_extension_manifest payload with
    | .error e => .error e
    | .ok (_, changed) =>
      match migrate_batch rest with
      | .error e => .error e
      | .ok (paths, n) =>
        .ok ((if changed then path :: paths else paths), n + 1)

/-- A word of a well-formed slug: non-empty, all lowercase alphanumerics. -/
def IsSlugWord (w : List Char) : Prop :=
  w ≠ [] ∧ ∀ c ∈ w, isLowerAlnumChar c = true

/-- A well-formed slug value: non-empty slug words joined by `-`.  Every
`normalize_slug` output that is non-empty has this shape, and such strings
are fixed points of `normalize_slug`. -/
def IsSlugStr (s : String) : Prop :=
  ∃ ws, ws ≠ [] ∧ (∀ w ∈ ws, IsSlugWord w) ∧ s.data = joinSep '-' ws

/-! ## Example documents used in concrete scenarios -/

/-- A state migration manifest whose `version` is the JSON boolean `true`. -/
def egStateManifestBoolVersion : JValue :=
  .obj [("version", .bool true),
        ("package_name", .str "pkg"),
        ("required_files", .list [.str "a.txt"]),
        ("optional_globs", .list []),
        ("exclude_globs", .list [])]

/-- A package manifest whose `package_version` is the JSON boolean `true`. -/
def egPackageManifestBoolVersion : JValue :=
  .obj [("package_version", .bool true),
        ("manifest_version", .int 1),
        ("package_name", .str "pkg"),
        ("created_at", .str "2025-01-01T00:00:00Z"),
        ("source_repo", .str "/repo"),
        ("source_commit", .str ""),
        ("dry_run_preview", .bool false),
        ("entry_count", .int 0),
        ("entries", .list [])]

/-- An exporter-side migration manifest whose `version` is the boolean `true`
(and no `package_name`, exercising the default). -/
def egExportManifestBoolVersion : JValue :=
  .obj [("version", .bool true),
        ("required_files", .list [.str "a.txt"]),
        ("optional_globs", .list []),
        ("exclude_globs", .list [])]

/-- A 64-character uppercase "hex" digest. -/
def egUpperSha : String :=
  String.mk (List.replicate 64 'A')

/-- A package entry whose `sha256` is uppercase hex. -/
def egPackageEntryUpperSha : JValue :=
  .obj [("path", .str "a.txt"),
        ("sha256", .str egUpperSha),
        ("size_bytes", .int 1)]

/-- A package manifest whose only entry has an uppercase `sha256`. -/
def egPackageManifestUpperSha : JValue :=
  .obj [("package_version", .int 1),
        ("manifest_version", .int 1),
        ("package_name", .str "pkg"),
        ("created_at", .str "2025-01-01T00:00:00Z"),
        ("source_repo", .str "/repo"),
        ("source_commit", .str ""),
        ("dry_run_preview", .bool false),
        ("entry_count", .int 1),
        ("entries", .list [egPackageEntryUpperSha])]

/-- A well-typed package entry with a lowercase digest. -/
def egPackageEntryOk : JValue :=
  .obj [("path", .str "a.txt"),
        ("sha256", .str (String.mk (List.replicate 64 'a'))),
        ("size_bytes", .int 1)]

/-- A package manifest declaring `entry_count: 2` but carrying one entry. -/
def egPackageManifestCountMismatch : JValue :=
  .obj [("package_version", .int 1),
        ("manifest_version", .int 1),
        ("package_name", .str "pkg"),
        ("created_at", .str "2025-01-01T00:00:00Z"),
        ("source_repo", .str "/repo"),
        ("source_commit", .str ""),
        ("dry_run_preview", .bool false),
        ("entry_count", .int 2),
        ("entries", .list [egPackageEntryOk])]

/-- A valid dry-run preview package manifest (no payload entries). -/
def egPackageManifestPreview : JValue :=
  .obj [("package_version", .int 1),
        ("manifest_version", .int 1),
        ("package_name", .str "pkg"),
        ("created_at", .str "2025-01-01T00:00:00Z"),
        ("source_repo", .str "/repo"),
        ("source_commit", .str ""),
        ("dry_run_preview", .bool true),
        ("entry_count", .int 1),
        ("entries", .list [egPackageEntryOk])]

/-- A package manifest with an unsafe (traversal) entry path. -/
def egPackageManifestUnsafeEntry : JValue :=
  .obj [("package_version", .int 1),
        ("manifest_version", .int 1),
        ("package_name", .str "pkg"),
        ("created_at", .str "2025-01-01T00:00:00Z"),
        ("source_repo", .str "/repo"),
        ("source_commit", .str ""),
        ("dry_run_preview", .bool false),
        ("entry_count", .int 1),
        ("entries", .list [.obj [
          ("path", .str "../escape.txt"),
          ("sha256", .str (String.mk (List.replicate 64 'a'))),
          ("size_bytes", .int 1)]])]

/-- A valid extension manifest whose name slugs to nothing. -/
def egBadNameManifest : JValue :=
  .obj [("name", .str "***"),
        ("version", .str "0.1.0"),
        ("capabilities", .list [.str "sync"]),
        ("entrypoints", .obj [("doctor", .str "scripts/tool.py")]),
        ("commands", .obj [("doctor-run", .str "scripts/tool.py")])]

/-- A valid extension manifest with a not-yet-namespaced command. -/
def egGoodManifest : JValue :=
  .obj [("name", .str "sample-extension"),
        ("version", .str "0.1.0"),
        ("capabilities", .list [.str "sync"]),
        ("entrypoints", .obj [("doctor", .str "scripts/tool.py")]),
        ("commands", .obj [("doctor-run", .str "scripts/tool.py")])]

/-- Two commands slugging to the same suffix (`"Doctor Run"` and
`"doctor-run"`), under an extension named `ns`. -/
def egCollidingManifest : JValue :=
  .obj [("name", .str "ns"),
        ("version", .str "0.1.0"),
        ("capabilities", .list [.str "sync"]),
        ("entrypoints", .obj [("main", .str "x.py")]),
        ("commands", .obj [("Doctor Run", .str "a.py"), ("doctor-run", .str "b.py")])]

/-- The migrated form of `egCollidingManifest`: distinct keys
`ns/doctor-run` and `ns/doctor-run-2` in declaration order, plus the
stamped contract. -/
def egCollidingMigrated : JValue :=
  .obj [("name", .str "ns"),
        ("version", .str "0.1.0"),
        ("capabilities", .list [.str "sync"]),
        ("entrypoints", .obj [("main", .str "x.py")]),
        ("commands", .obj [("ns/doctor-run", .str "a.py"),
                           ("ns/doctor-run-2", .str "b.py")]),
        ("command_contract", .obj [("version", .int 1), ("namespace", .str "ns")])]

/-! ## Theorems and supporting lemmas -/

theorem contains_iff_mem_strlist {α : Type} [BEq α] [LawfulBEq α] (l : List α) (a : α) :
    l.contains a = true ↔ a ∈ l := by
  simp [List.contains]

/-- C2: `ensure_safe_relative p` fails exactly when `p` is absolute or some
path segment of `p` equals `..`, and otherwise returns the normalized
relative path; `resolve_safe_child root p ctx` fails under the same
condition and otherwise returns `p` resolved under `root`. -/
theorem C2_path_safety_guard (p : String) (root : List String) (ctx : String) :
    ((∃ msg, ensure_safe_relative p = .error msg) ↔
      (isAbsolutePath p = true ∨ ".." ∈ pathParts p)) ∧
    ((isAbsolutePath p = false ∧ ".." ∉ pathParts p) →
      ensure_safe_relative p = .ok (pathParts p)) ∧
    ((∃ msg, resolve_safe_child root p ctx = .error msg) ↔
      (isAbsolutePath p = true ∨ ".." ∈ pathParts p)) ∧
    ((isAbsolutePath p = false ∧ ".." ∉ pathParts p) →
      resolve_safe_child root p ctx = .ok (root ++ pathParts p)) := by
  have hiff : (isAbsolutePath p || (pathParts p).contains "..") = true ↔
      (isAbsolutePath p = true ∨ ".." ∈ pathParts p) := by
    simp [List.contains]
  cases hb : (isAbsolutePath p || (pathParts p).contains "..") with
  | true =>
    have hcond : isAbsolutePath p = true ∨ ".." ∈ pathParts p := hiff.mp hb
    have herr : ensure_safe_relative p = .error s!"Unsafe package entry path: {p}" := by
      unfold ensure_safe_relative
      rw [hb]
      simp
    have herr2 : ∃ msg, resolve_safe_child root p ctx = .error msg := by
      apply Exists.intro
      unfold resolve_safe_child
      rw [herr]
    refine ⟨⟨fun _ => hcond, fun _ => ⟨_, herr⟩⟩, ?_, ⟨fun _ => hcond, fun _ => herr2⟩, ?_⟩
    · rintro ⟨habs, hdd⟩
      rcases hcond with h | h
      · rw [habs] at h; cases h
      · exact absurd h hdd
    · rintro ⟨habs, hdd⟩
      rcases hcond with h | h
      · rw [habs] at h; cases h
      · exact absurd h hdd
  | false =>
    have hncond : ¬ (isAbsolutePath p = true ∨ ".." ∈ pathParts p) := by
      intro hc
      have := hiff.mpr hc
      rw [hb] at this
      cases this
    have hok : ensure_safe_relative p = .ok (pathParts p) := by
      unfold ensure_safe_relative
      rw [hb]
      simp
    have hok2 : resolve_safe_child root p ctx = .ok (root ++ pathParts p) := by
      unfold resolve_safe_child
      rw [hok]
    refine ⟨⟨?_, fun h => absurd h hncond⟩, fun _ => hok, ⟨?_, fun h => absurd h hncond⟩, fun _ => hok2⟩
    · rintro ⟨msg, hmsg⟩
      rw [hok] at hmsg
      cases hmsg
    · rintro ⟨msg, hmsg⟩
      rw [hok2] at hmsg
      cases hmsg

/-- Witness for C2 at the concrete path `"a/b"` under root `["r"]`. -/
theorem C2_path_safety_guard_witness :
    ensure_safe_relative "a/b" = .ok ["a", "b"] ∧
    resolve_safe_child ["r"] "a/b" "ctx" = .ok ["r", "a", "b"] := by
  have h := C2_path_safety_guard "a/b" ["r"] "ctx"
  have hcond : isAbsolutePath "a/b" = false ∧ ".." ∉ pathParts "a/b" := by decide
  refine ⟨?_, ?_⟩
  · have := h.2.1 hcond
    simpa using this
  · have := h.2.2.2 hcond
    simpa using this

/-! ### Order lemmas for `strLe` -/

theorem charListLe_total (a b : List Char) :
    charListLe a b = true ∨ charListLe b a = true := by
  induction a generalizing b with
  | nil => left; rfl
  | cons x xs ih =>
    cases b with
    | nil => right; rfl
    | cons y ys =>
      rcases lt_trichotomy x y with h | h | h
      · left; simp [charListLe, h]
      · subst h
        rcases ih ys with h2 | h2
        · left; simp [charListLe, h2]
        · right; simp [charListLe, h2]
      · right; simp [charListLe, h]

theorem charListLe_trans {a b c : List Char} (hab : charListLe a b = true)
    (hbc : charListLe b c = true) : charListLe a c = true := by
  induction a generalizing b c with
  | nil => rfl
  | cons x xs ih =>
    cases b with
    | nil => simp [charListLe] at hab
    | cons y ys =>
      cases c with
      | nil => simp [charListLe] at hbc
      | cons z zs =>
        simp only [charListLe, Bool.or_eq_true, Bool.and_eq_true,
          decide_eq_true_eq] at hab hbc ⊢
        rcases hab with h1 | ⟨h1, h1'⟩ <;> rcases hbc with h2 | ⟨h2, h2'⟩
        · exact Or.inl (lt_trans h1 h2)
        · exact Or.inl (h2 ▸ h1)
        · exact Or.inl (h1 ▸ h2)
        · exact Or.inr ⟨h1.trans h2, ih h1' h2'⟩

theorem strLe_total (a b : String) : strLe a b = true ∨ strLe b a = true :=
  charListLe_total a.data b.data

theorem strLe_trans {a b c : String} (hab : strLe a b = true)
    (hbc : strLe b c = true) : strLe a c = true :=
  charListLe_trans hab hbc

/-! ### Sorting lemmas -/

theorem mem_insertSorted {x a : String} {l : List String} :
    a ∈ insertSorted x l ↔ a = x ∨ a ∈ l := by
  induction l with
  | nil => simp [insertSorted]
  | cons y ys ih =>
    cases h : strLe x y with
    | true =>
      simp only [insertSorted, h, if_true]
      constructor
      · intro hm
        rcases List.mem_cons.mp hm with rfl | hm
        · exact Or.inl rfl
        · exact Or.inr hm
      · intro hm
        rcases hm with rfl | hm
        · exact List.mem_cons_self _ _
        · exact List.mem_cons_of_mem _ hm
    | false =>
      simp only [insertSorted, h]
      constructor
      · intro hm
        rcases List.mem_cons.mp hm with rfl | hm
        · exact Or.inr (List.mem_cons_self _ _)
        · rcases ih.mp hm with rfl | hm
          · exact Or.inl rfl
          · exact Or.inr (List.mem_cons_of_mem _ hm)
      · intro hm
        rcases hm with rfl | hm
        · exact List.mem_cons_of_mem _ (ih.mpr (Or.inl rfl))
        · rcases List.mem_cons.mp hm with rfl | hm
          · exact List.mem_cons_self _ _
          · exact List.mem_cons_of_mem _ (ih.mpr (Or.inr hm))

theorem pairwise_insertSorted {x : String} {l : List String}
    (hl : l.Pairwise (fun a b => strLe a b = true)) :
    (insertSorted x l).Pairwise (fun a b => strLe a b = true) := by
  induction l with
  | nil => simp [insertSorted]
  | cons y ys ih =>
    rcases List.pairwise_cons.mp hl with ⟨hy, hys⟩
    cases h : strLe x y with
    | true =>
      simp only [insertSorted, h, if_true]
      refine List.pairwise_cons.mpr ⟨?_, hl⟩
      intro b hb
      rcases List.mem_cons.mp hb with rfl | hb
      · exact h
      · exact strLe_trans h (hy b hb)
    | false =>
      have hyx : strLe y x = true := by
        rcases strLe_total x y with h2 | h2
        · rw [h] at h2; cases h2
        · exact h2
      simp only [insertSorted, h]
      refine List.pairwise_cons.mpr ⟨?_, ih hys⟩
      intro b hb
      rcases mem_insertSorted.mp hb with rfl | hb
      · exact hyx
      · exact hy b hb

theorem nodup_insertSorted {x : String} {l : List String} (hx : x ∉ l)
    (hl : l.Nodup) : (insertSorted x l).Nodup := by
  induction l with
  | nil => simp [insertSorted]
  | cons y ys ih =>
    have hx1 : x ≠ y := fun h => hx (h ▸ List.mem_cons_self _ _)
    have hx2 : x ∉ ys := fun h => hx (List.mem_cons_of_mem _ h)
    rcases List.nodup_cons.mp hl with ⟨hy, hys⟩
    cases h : strLe x y with
    | true =>
      simp only [insertSorted, h, if_true]
      exact List.nodup_cons.mpr ⟨by simpa using hx, hl⟩
    | false =>
      simp only [insertSorted, h]
      refine List.nodup_cons.mpr ⟨?_, ih hx2 hys⟩
      intro hmem
      rcases mem_insertSorted.mp hmem with h2 | h2
      · exact hx1 h2.symm
      · exact hy h2

theorem mem_sortStrings {a : String} {l : List String} :
    a ∈ sortStrings l ↔ a ∈ l := by
  induction l with
  | nil => simp [sortStrings]
  | cons x xs ih =>
    show a ∈ insertSorted x (sortStrings xs) ↔ _
    rw [mem_insertSorted]
    simp [ih]

theorem pairwise_sortStrings (l : List String) :
    (sortStrings l).Pairwise (fun a b => strLe a b = true) := by
  induction l with
  | nil => simp [sortStrings]
  | cons x xs ih => exact pairwise_insertSorted ih

theorem nodup_sortStrings {l : List String} (hl : l.Nodup) :
    (sortStrings l).Nodup := by
  induction l with
  | nil => simp [sortStrings]
  | cons x xs ih =>
    rcases List.nodup_cons.mp hl with ⟨hx, hxs⟩
    exact nodup_insertSorted (fun h => hx (mem_sortStrings.mp h)) (ih hxs)

/-! ### Deduplication lemmas -/

theorem mem_dedupAppend {a : String} {acc l : List String} :
    a ∈ dedupAppend acc l ↔ a ∈ acc ∨ a ∈ l := by
  induction l generalizing acc with
  | nil => simp [dedupAppend]
  | cons x xs ih =>
    cases h : acc.contains x with
    | true =>
      have hx : x ∈ acc := (contains_iff_mem_strlist acc x).mp h
      simp only [dedupAppend, h, if_true]
      rw [ih]
      constructor
      · rintro (ha | ha)
        · exact Or.inl ha
        · exact Or.inr (List.mem_cons_of_mem _ ha)
      · rintro (ha | ha)
        · exact Or.inl ha
        · rcases List.mem_cons.mp ha with rfl | ha
          · exact Or.inl hx
          · exact Or.inr ha
    | false =>
      simp only [dedupAppend, h, Bool.false_eq_true, if_false]
      rw [ih]
      simp only [List.mem_append, List.mem_singleton, List.mem_cons]
      tauto

theorem nodup_dedupAppend {acc l : List String} (hacc : acc.Nodup) :
    (dedupAppend acc l).Nodup := by
  induction l generalizing acc with
  | nil => simpa [dedupAppend] using hacc
  | cons x xs ih =>
    cases h : acc.contains x with
    | true =>
      simp only [dedupAppend, h, if_true]
      exact ih hacc
    | false =>
      have hx : x ∉ acc := fun hm => by
        rw [(contains_iff_mem_strlist acc x).mpr hm] at h
        cases h
      simp only [dedupAppend, h, Bool.false_eq_true, if_false]
      refine ih ?_
      simp [List.nodup_append, hacc, hx]

theorem mem_dedupFirst {a : String} {l : List String} :
    a ∈ dedupFirst l ↔ a ∈ l := by
  unfold dedupFirst
  rw [mem_dedupAppend]
  simp

theorem nodup_dedupFirst (l : List String) : (dedupFirst l).Nodup :=
  nodup_dedupAppend List.nodup_nil

/-! ### Path resolution lemmas -/

theorem foldl_resolveDots_no_dots (l : List String) (h : ".." ∉ l)
    (acc : List String) :
    l.foldl (fun acc seg => if seg = ".." then acc.dropLast else acc ++ [seg]) acc
      = acc ++ l := by
  induction l generalizing acc with
  | nil => simp
  | cons x xs ih =>
    have hx : x ≠ ".." := fun hx => h (hx ▸ List.mem_cons_self _ _)
    simp only [List.foldl_cons, if_neg hx]
    rw [ih (fun hm => h (List.mem_cons_of_mem _ hm))]
    simp

theorem resolveDots_no_dots {l : List String} (h : ".." ∉ l) :
    resolveDots l = l := by
  unfold resolveDots
  rw [foldl_resolveDots_no_dots l h []]
  simp

theorem joinUnder_not_abs {root : List String} {rel : String}
    (h : isAbsolutePath rel = false) :
    joinUnder root rel = root ++ pathParts rel := by
  unfold joinUnder
  rw [h]
  simp

theorem repoRelative_append (root rest : List String) (hne : rest ≠ []) :
    repoRelative (root ++ rest) root = some (String.intercalate "/" rest) := by
  unfold repoRelative
  rw [if_pos]
  · rw [List.drop_left]
    cases rest with
    | nil => exact absurd rfl hne
    | cons r rs => rfl
  · exact List.isPrefixOf_iff_prefix.mpr (List.prefix_append root rest)

/-! ### Collector lemmas -/

theorem collectRequired_ok {fs : List (List String)} {root : List String}
    {required rs : List String}
    (hroot : ".." ∉ root)
    (hreq : ∀ r ∈ required, isAbsolutePath r = false ∧ ".." ∉ pathParts r ∧
      pathParts r ≠ [] ∧ String.intercalate "/" (pathParts r) = r)
    (h : collectRequired fs root required = .ok rs) :
    rs = required ∧ ∀ r ∈ required, (root ++ pathParts r) ∈ fs := by
  induction required generalizing rs with
  | nil =>
    refine ⟨?_, by simp⟩
    simp only [collectRequired] at h
    cases h
    rfl
  | cons r rest ih =>
    obtain ⟨habs, hdd, hne, hjoin⟩ := hreq r (List.mem_cons_self _ _)
    have hcand : resolveDots (joinUnder root r) = root ++ pathParts r := by
      rw [joinUnder_not_abs habs]
      refine resolveDots_no_dots ?_
      intro hm
      rcases List.mem_append.mp hm with hm | hm
      · exact hroot hm
      · exact hdd hm
    simp only [collectRequired, hcand] at h
    cases hc : (fs.contains (root ++ pathParts r)) with
    | false => rw [hc] at h; cases h
    | true =>
      rw [hc] at h
      simp only [if_true] at h
      rw [repoRelative_append root (pathParts r) hne] at h
      cases hrec : collectRequired fs root rest with
      | error e => rw [hrec] at h; cases h
      | ok rs' =>
        rw [hrec] at h
        cases h
        obtain ⟨heq, hmem⟩ := ih (fun x hx => hreq x (List.mem_cons_of_mem _ hx)) hrec
        refine ⟨by rw [heq, hjoin], ?_⟩
        intro x hx
        rcases List.mem_cons.mp hx with rfl | hx
        · exact (contains_iff_mem_strlist fs (root ++ pathParts x)).mp hc
        · exact hmem x hx

theorem mem_globMatchesIn {fs : List (List String)} {root : List String}
    {pattern a : String} :
    a ∈ globMatchesIn fs root pattern ↔
      ∃ f ∈ fs, root.isPrefixOf f = true ∧
        globSegsMatch (pathParts pattern) (f.drop root.length) = true ∧
        a = String.intercalate "/" (f.drop root.length) := by
  unfold globMatchesIn
  rw [List.mem_filterMap]
  constructor
  · rintro ⟨f, hf, hsome⟩
    cases hp : root.isPrefixOf f with
    | false => rw [hp] at hsome; simp at hsome
    | true =>
      rw [hp] at hsome
      simp only [if_true] at hsome
      cases hg : globSegsMatch (pathParts pattern) (f.drop root.length) with
      | false => rw [hg] at hsome; simp at hsome
      | true =>
        rw [hg] at hsome
        simp only [if_true, Option.some.injEq] at hsome
        exact ⟨f, hf, hp, hg, hsome.symm⟩
  · rintro ⟨f, hf, hp, hg, rfl⟩
    refine ⟨f, hf, ?_⟩
    rw [hp, hg]
    simp

/-- C1: for every repository root, required-file list, optional-glob list and
exclude-glob list accepted by the manifest collector, the returned file list
is exactly `(required ∪ optional-glob matches over regular files) −
exclude-glob matches`, deduplicated by normalized relative path and sorted
lexicographically by that relative path; and on the concrete tree
`{a.txt, docs/guide.md, docs/draft1.md}` with required `["a.txt"]`,
optional `["docs/*.md"]`, exclude `["docs/draft*.md"]` it returns exactly
`["a.txt", "docs/guide.md"]`. -/
theorem C1_collect_manifest_files :
    (∀ (fs : List (List String)) (root : List String)
        (required optional exclude result : List String),
      ".." ∉ root →
      (∀ r ∈ required, isAbsolutePath r = false ∧ ".." ∉ pathParts r ∧
        pathParts r ≠ [] ∧ String.intercalate "/" (pathParts r) = r) →
      collect_manifest_files fs root required optional exclude = .ok result →
      result.Pairwise (fun a b => strLe a b = true) ∧ result.Nodup ∧
      (∀ rel, rel ∈ result ↔
        ((rel ∈ required ∨
            ∃ pat ∈ optional, ∃ f ∈ fs, root.isPrefixOf f = true ∧
              globSegsMatch (pathParts pat) (f.drop root.length) = true ∧
              rel = String.intercalate "/" (f.drop root.length)) ∧
          ¬ ∃ pat ∈ exclude, fnmatch rel pat = true))) ∧
    collect_manifest_files
      [["r", "a.txt"], ["r", "docs", "guide.md"], ["r", "docs", "draft1.md"]]
      ["r"] ["a.txt"] ["docs/*.md"] ["docs/draft*.md"]
      = .ok ["a.txt", "docs/guide.md"] := by
  constructor
  · intro fs root required optional exclude result hroot hreq h
    unfold collect_manifest_files at h
    cases hcr : collectRequired fs root required with
    | error e => rw [hcr] at h; cases h
    | ok reqRels =>
      rw [hcr] at h
      cases h
      obtain ⟨hreqeq, -⟩ := collectRequired_ok hroot hreq hcr
      subst hreqeq
      refine ⟨pairwise_sortStrings _, nodup_sortStrings ((nodup_dedupFirst _).filter _), ?_⟩
      intro rel
      rw [mem_sortStrings, List.mem_filter, mem_dedupFirst, List.mem_append,
        List.mem_flatMap]
      constructor
      · rintro ⟨hin, hkeep⟩
        refine ⟨?_, ?_⟩
        · rcases hin with hin | hin
          · exact Or.inl hin
          · obtain ⟨pat, hpat, hmem⟩ := hin
            obtain ⟨f, hf, hp, hg, heq⟩ := mem_globMatchesIn.mp hmem
            exact Or.inr ⟨pat, hpat, f, hf, hp, hg, heq⟩
        · rintro ⟨pat, hpat, hfn⟩
          have : exclude.any (fun q => fnmatch rel q) = true :=
            List.any_eq_true.mpr ⟨pat, hpat, hfn⟩
          rw [this] at hkeep
          cases hkeep
      · rintro ⟨hin, hexc⟩
        refine ⟨?_, ?_⟩
        · rcases hin with hin | hin
          · exact Or.inl hin
          · obtain ⟨pat, hpat, f, hf, hp, hg, heq⟩ := hin
            exact Or.inr ⟨pat, hpat, mem_globMatchesIn.mpr ⟨f, hf, hp, hg, heq⟩⟩
        · cases hany : exclude.any (fun q => fnmatch rel q) with
          | false => simp [hany]
          | true =>
            obtain ⟨pat, hpat, hfn⟩ := List.any_eq_true.mp hany
            exact absurd ⟨pat, hpat, hfn⟩ hexc
  · rfl

/-- Witness for C1: the general characterization instantiated at the
concrete scenario tree. -/
theorem C1_collect_manifest_files_witness :
    ["a.txt", "docs/guide.md"].Nodup ∧
    (∀ rel, rel ∈ ["a.txt", "docs/guide.md"] ↔
      ((rel ∈ ["a.txt"] ∨
          ∃ pat ∈ ["docs/*.md"],
            ∃ f ∈ [["r", "a.txt"], ["r", "docs", "guide.md"],
                ["r", "docs", "draft1.md"]],
              List.isPrefixOf ["r"] f = true ∧
              globSegsMatch (pathParts pat) (f.drop 1) = true ∧
              rel = String.intercalate "/" (f.drop 1)) ∧
        ¬ ∃ pat ∈ ["docs/draft*.md"], fnmatch rel pat = true)) := by
  have h := (C1_collect_manifest_files.1
    [["r", "a.txt"], ["r", "docs", "guide.md"], ["r", "docs", "draft1.md"]]
    ["r"] ["a.txt"] ["docs/*.md"] ["docs/draft*.md"] ["a.txt", "docs/guide.md"]
    (by decide) (by decide) C1_collect_manifest_files.2)
  exact ⟨h.2.1, h.2.2⟩

/-- C3 counterexample: the export collection path does NOT pass required
files through the path safety guard.  The required entry `"a/../b.txt"`
contains a `..` segment — `ensure_safe_relative` rejects it — yet
`collect_manifest_files` resolves it directly, stats it, and selects it for
export without any `UnsafePath` error. -/
theorem C3_guard_counterexample :
    collect_manifest_files [["r", "b.txt"]] ["r"] ["a/../b.txt"] [] []
      = .ok ["b.txt"] ∧
    (∃ msg, ensure_safe_relative "a/../b.txt" = .error msg) := by
  exact ⟨rfl, ⟨_, rfl⟩⟩

/-! ### `Except` inversion helpers -/

theorem except_bind_ok {α β : Type} {x : Except String α} {f : α → Except String β}
    {b : β} (h : (x >>= f) = .ok b) : ∃ a, x = .ok a ∧ f a = .ok b := by
  cases x with
  | error e => cases h
  | ok a => exact ⟨a, rfl, h⟩

theorem expect_non_empty_str_ok {v : JValue} {ctx t : String}
    (h : expect_non_empty_str v ctx = .ok t) :
    ∃ s, v = .str s ∧ t = pyStrip s ∧ pyStrip s ≠ "" := by
  cases v with
  | str s =>
    simp only [expect_non_empty_str, expect_str] at h
    by_cases hs : pyStrip s = ""
    · rw [if_pos hs] at h; cases h
    · rw [if_neg hs] at h
      cases h
      exact ⟨s, rfl, rfl, hs⟩
  | null => simp [expect_non_empty_str, expect_str] at h
  | bool b => simp [expect_non_empty_str, expect_str] at h
  | int n => simp [expect_non_empty_str, expect_str] at h
  | list xs => simp [expect_non_empty_str, expect_str] at h
  | obj kvs => simp [expect_non_empty_str, expect_str] at h

theorem expect_int_ok {v : JValue} {ctx : String} {mv : Option Int} {n : Int}
    (h : expect_int v ctx mv = .ok n) :
    n = asPyInt v ∧ (∀ m, mv = some m → m ≤ n) := by
  cases v with
  | int k =>
    cases mv with
    | none =>
      simp only [expect_int] at h
      cases h
      exact ⟨rfl, by intro m hm; cases hm⟩
    | some m =>
      simp only [expect_int] at h
      by_cases hlt : asPyInt (JValue.int k) < m
      · rw [if_pos hlt] at h; cases h
      · rw [if_neg hlt] at h
        cases h
        exact ⟨rfl, by rintro m' ⟨rfl⟩; omega⟩
  | bool b =>
    cases mv with
    | none =>
      simp only [expect_int] at h
      cases h
      exact ⟨rfl, by intro m hm; cases hm⟩
    | some m =>
      simp only [expect_int] at h
      by_cases hlt : asPyInt (JValue.bool b) < m
      · rw [if_pos hlt] at h; cases h
      · rw [if_neg hlt] at h
        cases h
        exact ⟨rfl, by rintro m' ⟨rfl⟩; omega⟩
  | null => simp [expect_int] at h
  | str s => simp [expect_int] at h
  | list xs => simp [expect_int] at h
  | obj kvs => simp [expect_int] at h

theorem expect_bool_ok {v : JValue} {ctx : String} {b : Bool}
    (h : expect_bool v ctx = .ok b) : v = .bool b := by
  cases v with
  | bool b' =>
    simp only [expect_bool] at h
    cases h
    rfl
  | null => simp [expect_bool] at h
  | int n => simp [expect_bool] at h
  | str s => simp [expect_bool] at h
  | list xs => simp [expect_bool] at h
  | obj kvs => simp [expect_bool] at h

/-! ### Package-manifest validation: success facts -/

theorem validate_package_entries_props {ctx : String} {i : Nat}
    {entries : List JValue}
    (h : validate_package_entries ctx i entries = .ok ()) :
    ∀ e ∈ entries,
      (∃ p parts, jGetD e "path" = .str p ∧
        ensure_safe_relative (pyStrip p) = .ok parts) ∧
      (∃ s, jGetD e "sha256" = .str s ∧ (pyStrip s).length = 64 ∧
        (pyStrip s).data.all
          (fun ch => "0123456789abcdef".data.contains ch.toLower) = true) := by
  induction entries generalizing i with
  | nil => intro e he; cases he
  | cons entry rest ih =>
    rw [validate_package_entries] at h
    obtain ⟨kvs, h1, h⟩ := except_bind_ok h
    obtain ⟨rel_path, h2, h⟩ := except_bind_ok h
    obtain ⟨p, hp, hrelp, -⟩ := expect_non_empty_str_ok h2
    cases hsafe : ensure_safe_relative rel_path with
    | error e => rw [hsafe] at h; cases h
    | ok parts =>
      rw [hsafe] at h
      obtain ⟨digest, h3, h⟩ := except_bind_ok h
      obtain ⟨sdig, hs, hdig, -⟩ := expect_non_empty_str_ok h3
      cases hc : (digest.length != 64
          || digest.data.any (fun ch => !("0123456789abcdef".data.contains ch.toLower))) with
      | true => rw [hc] at h; cases h
      | false =>
        rw [hc] at h
        simp only [Bool.or_eq_false_iff, bne_eq_false_iff_eq] at hc
        obtain ⟨hlen, hany⟩ := hc
        obtain ⟨nsize, h4, h⟩ := except_bind_ok h
        intro e he
        rcases List.mem_cons.mp he with rfl | he
        · subst hrelp
          subst hdig
          refine ⟨⟨p, parts, hp, hsafe⟩, sdig, hs, hlen, ?_⟩
          rw [List.all_eq_true]
          intro ch hch
          have h5 : ¬ (!("0123456789abcdef".data.contains ch.toLower)) = true :=
            (List.any_eq_false.mp hany) ch hch
          cases hcb : ("0123456789abcdef".data.contains ch.toLower) with
          | true => rfl
          | false => exact absurd (by rw [hcb]; decide) h5
        · exact ih h e he

theorem validate_package_manifest_ok_props {doc : JValue} {ctx : String} {r : JValue}
    (h : validate_package_manifest doc ctx = .ok r) :
    r = doc ∧
    ∃ entries, jGetD doc "entries" = .list entries ∧
      asPyInt (jGetD doc "entry_count") = (entries.length : Int) ∧
      (∃ b, jGetD doc "dry_run_preview" = .bool b) ∧
      validate_package_entries ctx 0 entries = .ok () := by
  rw [validate_package_manifest] at h
  obtain ⟨kvs, h1, h⟩ := except_bind_ok h
  cases hfil : package_required_keys.filter (fun k => (jGet doc k).isNone) with
  | cons m ms => rw [hfil] at h; cases h
  | nil =>
    rw [hfil] at h
    obtain ⟨pv, h2, h⟩ := except_bind_ok h
    obtain ⟨mv, h3, h⟩ := except_bind_ok h
    obtain ⟨pn, h4, h⟩ := except_bind_ok h
    obtain ⟨ca, h5, h⟩ := except_bind_ok h
    obtain ⟨sr, h6, h⟩ := except_bind_ok h
    cases hsc : jGetD doc "source_commit" with
    | str s =>
      rw [hsc] at h
      obtain ⟨dr, h7, h⟩ := except_bind_ok h
      cases hent : jGetD doc "entries" with
      | list entries =>
        rw [hent] at h
        obtain ⟨expected, h8, h⟩ := except_bind_ok h
        cases hne : (expected != (entries.length : Int)) with
        | true => rw [hne] at h; cases h
        | false =>
          rw [hne] at h
          obtain ⟨u, h9, h⟩ := except_bind_ok h
          cases h
          obtain ⟨hexp, -⟩ := expect_int_ok h8
          refine ⟨rfl, entries, rfl, ?_, ⟨dr, expect_bool_ok h7⟩, by cases u; exact h9⟩
          rw [← hexp]
          exact bne_eq_false_iff_eq.mp hne
      | null => rw [hent] at h; cases h
      | bool b => rw [hent] at h; cases h
      | int n => rw [hent] at h; cases h
      | str s2 => rw [hent] at h; cases h
      | obj kvs2 => rw [hent] at h; cases h
    | null => rw [hsc] at h; cases h
    | bool b => rw [hsc] at h; cases h
    | int n => rw [hsc] at h; cases h
    | list xs => rw [hsc] at h; cases h
    | obj kvs2 => rw [hsc] at h; cases h

/-- C10 (implicit): the schema validator's integer checks accept Python
booleans (`bool` subclasses `int`), so a document whose `version` field is
the JSON boolean `true` is accepted as a valid positive-integer version by
`validate_state_migration_manifest`, by `validate_package_manifest`, and by
the exporter's own `_validate_manifest`, rather than being rejected as a
type error. -/
theorem C10_validators_accept_bool_version :
    expect_int (.bool true) "doc.version" (some 1) = .ok 1 ∧
    validate_state_migration_manifest egStateManifestBoolVersion "m"
      = .ok egStateManifestBoolVersion ∧
    validate_package_manifest egPackageManifestBoolVersion "p"
      = .ok egPackageManifestBoolVersion ∧
    export_validate_manifest egExportManifestBoolVersion
      = .ok (["a.txt"], [], [], 1, "graphiti-openclaw-state-migration") := by
  exact ⟨rfl, rfl, rfl, rfl⟩

/-- C5 counterexample: `validate_package_manifest` accepts a `sha256` of 64
UPPERCASE hex characters (the code lowercases before checking), so
validation succeeding does not imply every `entries[i].sha256` is a string
of 64 lowercase hexadecimal characters as the claim states. -/
theorem C5_counterexample_uppercase_sha :
    validate_package_manifest egPackageManifestUpperSha "state_package_manifest"
      = .ok egPackageManifestUpperSha ∧
    jGetD egPackageEntryUpperSha "sha256" = .str egUpperSha ∧
    egUpperSha.length = 64 ∧
    egUpperSha.data.all (fun c => "0123456789abcdef".data.contains c) = false := by
  exact ⟨rfl, rfl, by decide, by decide⟩

/-- C5 (amended): validation succeeds only if `entry_count` equals the
length of `entries[]` (the concrete manifest declaring `entry_count: 2`
with one element fails with the count-mismatch error, before any file I/O —
the validator is a pure function), and only if every `entries[i].sha256`
strips to a string of exactly 64 hexadecimal characters compared
case-insensitively (the code lowercases the digest before checking, so
uppercase hex is also accepted). -/
theorem C5_package_schema_checks :
    (∀ (doc : JValue) (ctx : String) (r : JValue),
      validate_package_manifest doc ctx = .ok r →
      ∃ entries, jGetD doc "entries" = .list entries ∧
        asPyInt (jGetD doc "entry_count") = (entries.length : Int) ∧
        ∀ e ∈ entries, ∃ s, jGetD e "sha256" = .str s ∧
          (pyStrip s).length = 64 ∧
          (pyStrip s).data.all
            (fun ch => "0123456789abcdef".data.contains ch.toLower) = true) ∧
    validate_package_manifest egPackageManifestCountMismatch "state_package_manifest"
      = .error "state_package_manifest.entry_count mismatch: expected 2, found 1" := by
  constructor
  · intro doc ctx r h
    obtain ⟨-, entries, hent, hcount, -, hloop⟩ := validate_package_manifest_ok_props h
    refine ⟨entries, hent, hcount, ?_⟩
    intro e he
    exact (validate_package_entries_props hloop e he).2
  · rfl

/-- Witness for C5: the amended schema facts instantiated at the concrete
accepted manifest with an uppercase digest. -/
theorem C5_package_schema_checks_witness :
    ∃ entries, jGetD egPackageManifestUpperSha "entries" = .list entries ∧
      asPyInt (jGetD egPackageManifestUpperSha "entry_count") = (entries.length : Int) ∧
      ∀ e ∈ entries, ∃ s, jGetD e "sha256" = .str s ∧
        (pyStrip s).length = 64 ∧
        (pyStrip s).data.all
          (fun ch => "0123456789abcdef".data.contains ch.toLower) = true :=
  C5_package_schema_checks.1 egPackageManifestUpperSha "state_package_manifest"
    egPackageManifestUpperSha rfl

/-- C4: a real-run (non-dry-run) import of a package whose manifest has
`dry_run_preview = true` fails with a non-zero exit code and writes no file
into the target, for every target root and target state. -/
theorem C4_preview_package_real_import_fails (doc : JValue)
    (package_root target_root : List String) (fs : List FileInfo)
    (allow_overwrite : Bool)
    (hpreview : jGetD doc "dry_run_preview" = .bool true) :
    (import_main doc package_root target_root fs false allow_overwrite).1 ≠ 0 ∧
    (import_main doc package_root target_root fs false allow_overwrite).2 = [] := by
  unfold import_main
  split
  · exact ⟨by decide, rfl⟩
  · rename_i manifest hv
    have hm : manifest = doc := (validate_package_manifest_ok_props hv).1
    subst hm
    have hprev : pyTruthy (jGetD manifest "dry_run_preview") = true := by
      rw [hpreview]
      rfl
    repeat' split
    all_goals first
      | exact ⟨by decide, rfl⟩
      | contradiction

/-- Witness for C4 at a concrete preview package, empty filesystem and
fresh target. -/
theorem C4_preview_package_real_import_fails_witness :
    (import_main egPackageManifestPreview ["p"] ["t"] [] false false).1 ≠ 0 ∧
    (import_main egPackageManifestPreview ["p"] ["t"] [] false false).2 = [] :=
  C4_preview_package_real_import_fails egPackageManifestPreview ["p"] ["t"] [] false rfl

/-! ### Guard coverage (claim C3) -/

theorem ensure_safe_relative_error_of {p : String}
    (h : isAbsolutePath p = true ∨ ".." ∈ pathParts p) :
    ensure_safe_relative p = .error s!"Unsafe package entry path: {p}" := by
  unfold ensure_safe_relative
  have hb : (isAbsolutePath p || (pathParts p).contains "..") = true := by
    rcases h with h2 | h2
    · rw [h2]
      rfl
    · rw [(contains_iff_mem_strlist _ _).mpr h2, Bool.or_true]
  rw [hb]
  simp

/-- C3 (amended): package entry paths during import and extension
entrypoints during contract checking are passed through the path safety
guard before any filesystem access — an import whose manifest carries an
entry path whose stripped form is absolute or contains a `..` segment
exits 2 with no writes, in every mode and for every filesystem, and an
unsafe entrypoint is reported as an issue without consulting the
filesystem — but required files during export collection are NOT guarded:
`collect_manifest_files` resolves them directly and accepts a
`..`-containing required path. -/
theorem C3_guard_coverage :
    (∀ (doc : JValue) (package_root target_root : List String)
        (fs : List FileInfo) (dry_run allow_overwrite : Bool)
        (entries : List JValue) (e : JValue) (s : String),
      jGetD doc "entries" = .list entries → e ∈ entries →
      jGetD e "path" = .str s →
      (isAbsolutePath (pyStrip s) = true ∨ ".." ∈ pathParts (pyStrip s)) →
      import_main doc package_root target_root fs dry_run allow_overwrite = (2, [])) ∧
    (∀ (fs fs' : List FileInfo) (repo_root : List String) (mp rel ctx : String),
      (isAbsolutePath rel = true ∨ ".." ∈ pathParts rel) →
      check_entrypoint fs repo_root mp rel ctx
        = check_entrypoint fs' repo_root mp rel ctx ∧
      ∃ issue, check_entrypoint fs repo_root mp rel ctx = some issue) ∧
    collect_manifest_files [["r", "n.txt"]] ["r"] ["sub/../n.txt"] [] []
      = .ok ["n.txt"] := by
  refine ⟨?_, ?_, rfl⟩
  · intro doc package_root target_root fs dry_run allow_overwrite entries e s
      hent hmem hpath hunsafe
    unfold import_main
    cases hv : validate_package_manifest doc "package_manifest.json" with
    | error msg => rfl
    | ok r =>
      exfalso
      obtain ⟨hr, entries', hent', -, -, hloop⟩ := validate_package_manifest_ok_props hv
      rw [hent] at hent'
      cases hent'
      obtain ⟨⟨p, parts, hp, hsafe⟩, -⟩ := validate_package_entries_props hloop e hmem
      rw [hpath] at hp
      cases hp
      rw [ensure_safe_relative_error_of hunsafe] at hsafe
      cases hsafe
  · intro fs fs' repo_root mp rel ctx hunsafe
    unfold check_entrypoint resolve_safe_child
    rw [ensure_safe_relative_error_of hunsafe]
    exact ⟨rfl, ⟨_, rfl⟩⟩

/-- Witness for C3 (amended): a concrete unsafe package entry blocks import
with exit 2 and no writes, and a concrete unsafe entrypoint is reported
identically on two different filesystems. -/
theorem C3_guard_coverage_witness :
    import_main egPackageManifestUnsafeEntry ["p"] ["t"] [] false false = (2, []) ∧
    (check_entrypoint [] ["r"] "m" "../x" "c"
        = check_entrypoint [⟨["r", "x"], 0, ""⟩] ["r"] "m" "../x" "c" ∧
      ∃ issue, check_entrypoint [] ["r"] "m" "../x" "c" = some issue) := by
  constructor
  · exact C3_guard_coverage.1 egPackageManifestUnsafeEntry ["p"] ["t"] [] false false
      _ _ "../escape.txt" rfl (List.mem_cons_self _ _) rfl (by decide)
  · exact C3_guard_coverage.2.1 [] [⟨["r", "x"], 0, ""⟩] ["r"] "m" "../x" "c" (by decide)

/-- C6 (code bug): when the `git rev-parse HEAD` lookup fails (e.g. exit
code 128 in a repository with no commits), the exporter's commit capture
raises `CalledProcessError` — the top-level handler turns this into exit
2 — instead of degrading to an empty `source_commit` as specified; the
dead `returncode == 0` test on the next source line anticipates exactly
the `check=False` behaviour, under which the same outcome yields `""`. -/
theorem C6_commit_lookup_aborts_export :
    export_source_commit ⟨128, ""⟩
      = .error "CalledProcessError: git rev-parse HEAD" ∧
    (match run_git false ⟨128, ""⟩ with
     | .error e => Except.error e
     | .ok head => Except.ok (if head.returncode == 0 then pyStrip head.stdout else ""))
      = Except.ok "" ∧
    export_source_commit ⟨0, "abc123\n"⟩ = .ok "abc123" := by
  exact ⟨rfl, rfl, rfl⟩

/-- C9 counterexample: a `NamespaceDerivationError` for the first extension
manifest aborts the whole batch run (the error propagates; exit 2) — the
second manifest is never processed — although that second manifest alone
migrates fine. -/
theorem C9_counterexample_batch_aborts :
    migrate_batch
      [("extensions/bad", egBadNameManifest), ("extensions/good", egGoodManifest)]
      = .error "Cannot derive namespace from extension name" ∧
    migrate_batch [("extensions/good", egGoodManifest)]
      = .ok (["extensions/good"], 1) := by
  exact ⟨rfl, rfl⟩

/-- C9 (amended): a `NamespaceDerivationError` raised for one extension
manifest is fatal to the entire batch: the run aborts with that error
regardless of the remaining manifests, which are not processed (the result
does not depend on them). -/
theorem C9_namespace_error_aborts_batch (path : String) (m : JValue)
    (rest : List (String × JValue)) (e : String)
    (h : _migrate_extension_manifest m = .error e) :
    migrate_batch ((path, m) :: rest) = .error e := by
  unfold migrate_batch
  rw [h]

/-- Witness for C9 (amended) at a concrete failing manifest and non-empty
remainder. -/
theorem C9_namespace_error_aborts_batch_witness :
    migrate_batch [("a", egBadNameManifest), ("b", egGoodManifest), ("c", egGoodManifest)]
      = .error "Cannot derive namespace from extension name" :=
  C9_namespace_error_aborts_batch "a" egBadNameManifest
    [("b", egGoodManifest), ("c", egGoodManifest)]
    "Cannot derive namespace from extension name" rfl

/-! ### Stable command keys: freshness -/

theorem string_length_mk (l : List Char) : (String.mk l).length = l.length := rfl

theorem mem_le_sum_lengths {s : String} {seen : List String} (h : s ∈ seen) :
    s.length ≤ (seen.map String.length).sum :=
  List.single_le_sum (fun x _ => Nat.zero_le x) _ (List.mem_map_of_mem _ h)

theorem stableKeyLoop_fresh (ns suffix : String) (seen : List String) :
    ∀ fuel counter, stableKeyLoop ns suffix seen fuel counter ∉ seen := by
  intro fuel
  induction fuel with
  | zero =>
    intro counter hmem
    have hle := mem_le_sum_lengths hmem
    have h1 : (String.mk (List.replicate ((seen.map String.length).sum + 1) 'x')).length
        = (seen.map String.length).sum + 1 := by
      show (List.replicate ((seen.map String.length).sum + 1) 'x').length = _
      rw [List.length_replicate]
    have hlen : (stableKeyLoop ns suffix seen 0 counter).length
        = ns.length + 1 + ((seen.map String.length).sum + 1) := by
      show (ns ++ "/" ++ String.mk (List.replicate _ 'x')).length = _
      rw [String.length_append, String.length_append, h1]
      have h2 : "/".length = 1 := rfl
      rw [h2]
    omega
  | succ fuel ih =>
    intro counter
    rw [stableKeyLoop]
    cases hc : seen.contains
        (ns ++ "/" ++ (if counter == 1 then suffix else suffix ++ "-" ++ Nat.repr counter)) with
    | true =>
      rw [if_pos rfl]
      exact ih (counter + 1)
    | false =>
      rw [if_neg (by decide)]
      intro hmem
      rw [(contains_iff_mem_strlist _ _).mpr hmem] at hc
      cases hc

theorem stable_command_key_fresh (ns raw : String) (seen : List String) :
    _stable_command_key ns raw seen ∉ seen := by
  unfold _stable_command_key
  split
  · exact stableKeyLoop_fresh ns "command" seen _ 1
  · exact stableKeyLoop_fresh ns _ seen _ 1

theorem migratedKeyFor_fresh (ns key : String) (seen : List String) :
    migratedKeyFor ns key seen ∉ seen := by
  unfold migratedKeyFor
  split
  · exact stable_command_key_fresh _ _ _
  · exact stable_command_key_fresh _ _ _

/-! ### Dict-update lemmas -/

theorem objGet_some_implies_obj {m : JValue} {k : String} {v : JValue}
    (h : jGet m k = some v) : ∃ kvs, m = .obj kvs := by
  cases m with
  | obj kvs => exact ⟨kvs, rfl⟩
  | null => cases h
  | bool b => cases h
  | int n => cases h
  | str s => cases h
  | list xs => cases h

theorem jGetD_obj_implies_obj {m : JValue} {k : String}
    {kvs' : List (String × JValue)} (h : jGetD m k = .obj kvs') :
    ∃ kvs, m = .obj kvs := by
  cases hg : jGet m k with
  | some v => exact objGet_some_implies_obj hg
  | none =>
    unfold jGetD at h
    rw [hg] at h
    cases h

theorem objSet_eq_append {kvs : List (String × JValue)} {k : String} {v : JValue}
    (h : k ∉ kvs.map Prod.fst) : objSet kvs k v = kvs ++ [(k, v)] := by
  induction kvs with
  | nil => rfl
  | cons p rest ih =>
    obtain ⟨k', v'⟩ := p
    have hk : k' ≠ k := by
      intro he
      exact h (he ▸ List.mem_map_of_mem _ (List.mem_cons_self _ _))
    simp only [objSet, if_neg hk]
    rw [ih (fun hm => h (by simpa using Or.inr (by simpa using hm)))]
    rfl

theorem objGet_objSet_self (kvs : List (String × JValue)) (k : String) (v : JValue) :
    objGet (objSet kvs k v) k = some v := by
  induction kvs with
  | nil => simp [objSet, objGet]
  | cons p rest ih =>
    obtain ⟨k', v'⟩ := p
    by_cases hk : k' = k
    · simp [objSet, objGet, hk]
    · simp only [objSet, if_neg hk, objGet]
      exact ih

theorem objGet_objSet_ne (kvs : List (String × JValue)) {k k' : String} (v : JValue)
    (h : k' ≠ k) : objGet (objSet kvs k v) k' = objGet kvs k' := by
  induction kvs with
  | nil =>
    simp only [objSet, objGet]
    rw [if_neg (fun he => h he.symm)]  -- hmm direction
  | cons p rest ih =>
    obtain ⟨k'', v''⟩ := p
    by_cases hk : k'' = k
    · subst hk
      simp only [objSet, if_pos rfl, objGet]
      rw [if_neg (fun he => h he.symm), if_neg (fun he => h he.symm)]
    · simp only [objSet, if_neg hk, objGet]
      by_cases hk2 : k'' = k'
      · rw [if_pos hk2, if_pos hk2]
      · rw [if_neg hk2, if_neg hk2]
        exact ih

theorem jGetD_migratedManifest_commands {kvs : List (String × JValue)}
    (ns : String) (migrated : List (String × JValue)) :
    jGetD (migratedManifest (.obj kvs) ns migrated) "commands" = .obj migrated := by
  unfold migratedManifest jSet jGetD jGet
  simp only
  rw [objGet_objSet_self]
  rfl

theorem jGetD_migratedManifest_name {kvs : List (String × JValue)}
    (ns : String) (migrated : List (String × JValue)) {k : String}
    (h1 : k ≠ "commands") (h2 : k ≠ "command_contract") :
    jGet (migratedManifest (.obj kvs) ns migrated) k = jGet (.obj kvs) k := by
  unfold migratedManifest jSet jGet
  simp only
  rw [objGet_objSet_ne _ _ h1, objGet_objSet_ne _ _ h2]

theorem jGetD_migratedManifest_contract {kvs : List (String × JValue)}
    (ns : String) (migrated : List (String × JValue)) :
    jGetD (migratedManifest (.obj kvs) ns migrated) "command_contract"
      = .obj [("version", .int 1), ("namespace", .str ns)] := by
  unfold migratedManifest jSet jGetD jGet
  simp only
  rw [objGet_objSet_ne _ _ (by decide), objGet_objSet_self]
  rfl

/-! ### Migrated command keys are unique -/

theorem migrateCommands_nodup {ns : String} {cmds : List (String × JValue)} :
    ∀ {seen : List String} {migrated res : List (String × JValue)} {ch0 ch : Bool},
      migrateCommands ns cmds seen migrated ch0 = .ok (res, ch) →
      (∀ k ∈ migrated.map Prod.fst, k ∈ seen) →
      (migrated.map Prod.fst).Nodup →
      (res.map Prod.fst).Nodup := by
  induction cmds with
  | nil =>
    intro seen migrated res ch0 ch h hsub hnd
    simp only [migrateCommands] at h
    cases h
    exact hnd
  | cons kv rest ih =>
    intro seen migrated res ch0 ch h hsub hnd
    obtain ⟨key, v⟩ := kv
    cases v with
    | str p =>
      simp only [migrateCommands] at h
      have hfresh := migratedKeyFor_fresh ns key seen
      have hnotin : migratedKeyFor ns key seen ∉ migrated.map Prod.fst :=
        fun hm => hfresh (hsub _ hm)
      rw [objSet_eq_append hnotin] at h
      refine ih h ?_ ?_
      · intro k hk
        rw [List.map_append] at hk
        rcases List.mem_append.mp hk with hk | hk
        · exact List.mem_cons_of_mem _ (hsub k hk)
        · simp only [List.map_cons, List.map_nil, List.mem_singleton] at hk
          subst hk
          exact List.mem_cons_self _ _
      · rw [List.map_append]
        refine List.Nodup.append hnd (by simp) ?_
        intro k hk1 hk2
        simp only [List.map_cons, List.map_nil, List.mem_singleton] at hk2
        subst hk2
        exact hnotin hk1
    | null => simp [migrateCommands] at h
    | bool b => simp [migrateCommands] at h
    | int n => simp [migrateCommands] at h
    | list xs => simp [migrateCommands] at h
    | obj kvs => simp [migrateCommands] at h

/-- C8: for every extension manifest (with well-formed, duplicate-free
command keys, as Python dicts guarantee) accepted by the migrator, the
migrated command keys are pairwise distinct — collisions are resolved with
`-2`, `-3`, … suffixes scanning in declaration order, deterministically —
and concretely `"Doctor Run"` and `"doctor-run"` under namespace `ns`
become `ns/doctor-run` and `ns/doctor-run-2`. -/
theorem C8_collision_free_migration :
    (∀ (manifest m' : JValue) (ch : Bool),
      (∀ cmds, jGetD manifest "commands" = .obj cmds → (cmds.map Prod.fst).Nodup) →
      _migrate_extension_manifest manifest = .ok (m', ch) →
      ∀ cmds', jGetD m' "commands" = .obj cmds' → (cmds'.map Prod.fst).Nodup) ∧
    _migrate_extension_manifest egCollidingManifest
      = .ok (egCollidingMigrated, true) := by
  constructor
  · intro manifest m' ch hwf h cmds' hc'
    unfold _migrate_extension_manifest at h
    split at h
    · rename_i cmds hcm
      obtain ⟨kvs, hobj⟩ := jGetD_obj_implies_obj hcm
      split at h
      · cases h
        rw [hcm] at hc'
        cases hc'
        exact hwf _ hcm
      · split at h
        · cases h
        · split at h
          · cases h
          · rename_i migrated changed hmc
            split at h
            · split at h
              · cases h
              · cases h
                subst hobj
                rw [jGetD_migratedManifest_commands] at hc'
                cases hc'
                exact migrateCommands_nodup hmc (by simp) (by simp)
            · split at h
              · cases h
              · cases h
                rw [hcm] at hc'
                cases hc'
                exact hwf _ hcm
    · rename_i hne
      cases h
      exact absurd (hne cmds' hc') (fun f => f)
  · rfl

/-- Witness for C8: the uniqueness statement instantiated at the concrete
colliding manifest. -/
theorem C8_collision_free_migration_witness :
    ∀ cmds', jGetD egCollidingMigrated "commands" = .obj cmds' →
      (cmds'.map Prod.fst).Nodup := by
  refine C8_collision_free_migration.1 egCollidingManifest egCollidingMigrated true
    ?_ C8_collision_free_migration.2
  intro cmds hc
  cases hc
  decide

/-! ### Character lemmas for slugs -/

theorem char_isAlphanum_ranges (c : Char) :
    c.isAlphanum = true ↔
      (65 ≤ c.toNat ∧ c.toNat ≤ 90) ∨ (97 ≤ c.toNat ∧ c.toNat ≤ 122) ∨
        (48 ≤ c.toNat ∧ c.toNat ≤ 57) := by
  simp only [Char.isAlphanum, Char.isAlpha, Char.isUpper, Char.isLower, Char.isDigit,
    Bool.or_eq_true, decide_eq_true_eq, Bool.and_eq_true]
  constructor
  · rintro ((⟨ha, hb⟩ | ⟨ha, hb⟩) | ⟨ha, hb⟩)
    · exact Or.inl ⟨by rw [ge_iff_le, UInt32.le_def, BitVec.le_def] at ha; exact ha,
        by rw [UInt32.le_def, BitVec.le_def] at hb; exact hb⟩
    · exact Or.inr (Or.inl ⟨by rw [ge_iff_le, UInt32.le_def, BitVec.le_def] at ha; exact ha,
        by rw [UInt32.le_def, BitVec.le_def] at hb; exact hb⟩)
    · exact Or.inr (Or.inr ⟨by rw [ge_iff_le, UInt32.le_def, BitVec.le_def] at ha; exact ha,
        by rw [UInt32.le_def, BitVec.le_def] at hb; exact hb⟩)
  · rintro (⟨ha, hb⟩ | ⟨ha, hb⟩ | ⟨ha, hb⟩)
    · exact Or.inl (Or.inl ⟨by rw [ge_iff_le, UInt32.le_def, BitVec.le_def]; exact ha,
        by rw [UInt32.le_def, BitVec.le_def]; exact hb⟩)
    · exact Or.inl (Or.inr ⟨by rw [ge_iff_le, UInt32.le_def, BitVec.le_def]; exact ha,
        by rw [UInt32.le_def, BitVec.le_def]; exact hb⟩)
    · exact Or.inr ⟨by rw [ge_iff_le, UInt32.le_def, BitVec.le_def]; exact ha,
        by rw [UInt32.le_def, BitVec.le_def]; exact hb⟩

theorem toLower_toNat_of_upper {c : Char} (h1 : 65 ≤ c.toNat) (h2 : c.toNat ≤ 90) :
    (Char.toLower c).toNat = c.toNat + 32 := by
  unfold Char.toLower
  rw [if_pos ⟨h1, h2⟩]
  unfold Char.ofNat
  rw [dif_pos (Or.inl (by omega))]
  rfl

theorem toLower_eq_self_of_not_upper {c : Char}
    (h : ¬ (65 ≤ c.toNat ∧ c.toNat ≤ 90)) : Char.toLower c = c := by
  unfold Char.toLower
  rw [if_neg h]

theorem lowerAlnum_toLower {c : Char} (h : c.isAlphanum = true) :
    isLowerAlnumChar c.toLower = true := by
  rcases (char_isAlphanum_ranges c).mp h with ⟨ha, hb⟩ | ⟨ha, hb⟩ | ⟨ha, hb⟩
  · have := toLower_toNat_of_upper ha hb
    unfold isLowerAlnumChar
    rw [this]
    simp only [Bool.or_eq_true, Bool.and_eq_true, decide_eq_true_eq]
    omega
  · rw [toLower_eq_self_of_not_upper (by omega)]
    unfold isLowerAlnumChar
    simp only [Bool.or_eq_true, Bool.and_eq_true, decide_eq_true_eq]
    omega
  · rw [toLower_eq_self_of_not_upper (by omega)]
    unfold isLowerAlnumChar
    simp only [Bool.or_eq_true, Bool.and_eq_true, decide_eq_true_eq]
    omega

theorem lowerAlnum_ranges {c : Char} (h : isLowerAlnumChar c = true) :
    (97 ≤ c.toNat ∧ c.toNat ≤ 122) ∨ (48 ≤ c.toNat ∧ c.toNat ≤ 57) := by
  unfold isLowerAlnumChar at h
  simp only [Bool.or_eq_true, Bool.and_eq_true, decide_eq_true_eq] at h
  exact h

theorem lowerAlnum_isAlphanum {c : Char} (h : isLowerAlnumChar c = true) :
    c.isAlphanum = true :=
  (char_isAlphanum_ranges c).mpr (by rcases lowerAlnum_ranges h with h2 | h2 <;> omega)

theorem lowerAlnum_toLower_self {c : Char} (h : isLowerAlnumChar c = true) :
    c.toLower = c := by
  refine toLower_eq_self_of_not_upper ?_
  rcases lowerAlnum_ranges h with h2 | h2 <;> omega

theorem lowerAlnum_ne_lt48 {c : Char} (h : isLowerAlnumChar c = true) {d : Char}
    (hd : d.toNat < 48) : c ≠ d := by
  intro he
  subst he
  rcases lowerAlnum_ranges h with h2 | h2 <;> omega

theorem lowerAlnum_not_space {c : Char} (h : isLowerAlnumChar c = true) :
    isPySpace c = false := by
  have h1 : c ≠ ' ' := lowerAlnum_ne_lt48 h (by decide)
  have h2 : c ≠ '\t' := lowerAlnum_ne_lt48 h (by decide)
  have h3 : c ≠ '\n' := lowerAlnum_ne_lt48 h (by decide)
  have h4 : c ≠ '\r' := lowerAlnum_ne_lt48 h (by decide)
  have h5 : c ≠ '\x0b' := lowerAlnum_ne_lt48 h (by decide)
  have h6 : c ≠ '\x0c' := lowerAlnum_ne_lt48 h (by decide)
  unfold isPySpace
  simp [h1, h2, h3, h4, h5, h6]

theorem lowerAlnum_ne_slash {c : Char} (h : isLowerAlnumChar c = true) : c ≠ '/' :=
  lowerAlnum_ne_lt48 h (by decide)

theorem lowerAlnum_ne_dash {c : Char} (h : isLowerAlnumChar c = true) : c ≠ '-' :=
  lowerAlnum_ne_lt48 h (by decide)

theorem lowerAlnum_ne_space {c : Char} (h : isLowerAlnumChar c = true) : c ≠ ' ' :=
  lowerAlnum_ne_lt48 h (by decide)

theorem slugMapChar_fixed {c : Char} (h : isLowerAlnumChar c = true) :
    slugMapChar c = c := by
  unfold slugMapChar
  rw [if_pos (lowerAlnum_isAlphanum h)]
  exact lowerAlnum_toLower_self h

theorem digitChar_lowerAlnum {m : Nat} (h : m < 10) :
    isLowerAlnumChar (Nat.digitChar m) = true := by
  interval_cases m <;> decide

/-! ### Decimal digits of `Nat.repr` -/

theorem toDigitsCore_lowerAlnum :
    ∀ (fuel n : Nat) (acc : List Char),
      (∀ c ∈ acc, isLowerAlnumChar c = true) →
      ∀ c ∈ Nat.toDigitsCore 10 fuel n acc, isLowerAlnumChar c = true := by
  intro fuel
  induction fuel with
  | zero =>
    intro n acc hacc
    exact hacc
  | succ fuel ih =>
    intro n acc hacc c hc
    rw [Nat.toDigitsCore] at hc
    have hdig : isLowerAlnumChar ((n % 10).digitChar) = true :=
      digitChar_lowerAlnum (Nat.mod_lt _ (by omega))
    split at hc
    · rcases List.mem_cons.mp hc with rfl | hc
      · exact hdig
      · exact hacc c hc
    · refine ih (n / 10) _ ?_ c hc
      intro d hd
      rcases List.mem_cons.mp hd with rfl | hd
      · exact hdig
      · exact hacc d hd

theorem toDigitsCore_ne_nil :
    ∀ (fuel n : Nat) (acc : List Char), (fuel ≠ 0 ∨ acc ≠ []) →
      Nat.toDigitsCore 10 fuel n acc ≠ [] := by
  intro fuel
  induction fuel with
  | zero =>
    intro n acc h
    rcases h with h | h
    · exact absurd rfl h
    · exact h
  | succ fuel ih =>
    intro n acc h
    rw [Nat.toDigitsCore]
    split
    · exact List.cons_ne_nil _ _
    · exact ih (n / 10) _ (Or.inr (List.cons_ne_nil _ _))

theorem repr_data_lowerAlnum (n : Nat) :
    ∀ c ∈ (Nat.repr n).data, isLowerAlnumChar c = true := by
  intro c hc
  have : (Nat.repr n).data = Nat.toDigitsCore 10 (n + 1) n [] := rfl
  rw [this] at hc
  exact toDigitsCore_lowerAlnum (n + 1) n [] (by intro d hd; cases hd) c hc

theorem repr_data_ne_nil (n : Nat) : (Nat.repr n).data ≠ [] := by
  have : (Nat.repr n).data = Nat.toDigitsCore 10 (n + 1) n [] := rfl
  rw [this]
  exact toDigitsCore_ne_nil (n + 1) n [] (Or.inl (by omega))

/-! ### `joinSep` and `splitCharList` -/

theorem joinSep_ne_nil {sep : Char} {ws : List (List Char)} (h : ws ≠ [])
    (hw : ∀ w ∈ ws, w ≠ []) : joinSep sep ws ≠ [] := by
  cases ws with
  | nil => exact absurd rfl h
  | cons w ws' =>
    cases ws' with
    | nil => exact hw w (List.mem_cons_self _ _)
    | cons w2 ws'' =>
      show w ++ sep :: joinSep sep (w2 :: ws'') ≠ []
      cases hw2 : w with
      | nil => exact absurd hw2 (hw w (List.mem_cons_self _ _))
      | cons c cs => simp

theorem mem_joinSep {sep : Char} {ws : List (List Char)} {c : Char}
    (h : c ∈ joinSep sep ws) : (∃ w ∈ ws, c ∈ w) ∨ c = sep := by
  induction ws with
  | nil => cases h
  | cons w ws' ih =>
    cases ws' with
    | nil => exact Or.inl ⟨w, List.mem_cons_self _ _, h⟩
    | cons w2 ws'' =>
      rcases List.mem_append.mp h with h2 | h2
      · exact Or.inl ⟨w, List.mem_cons_self _ _, h2⟩
      · rcases List.mem_cons.mp h2 with rfl | h2
        · exact Or.inr rfl
        · rcases ih h2 with ⟨w', hw', hc⟩ | hc
          · exact Or.inl ⟨w', List.mem_cons_of_mem _ hw', hc⟩
          · exact Or.inr hc

theorem joinSep_append {sep : Char} {ws ws' : List (List Char)} (h : ws ≠ [])
    (h' : ws' ≠ []) :
    joinSep sep (ws ++ ws') = joinSep sep ws ++ sep :: joinSep sep ws' := by
  induction ws with
  | nil => exact absurd rfl h
  | cons w rest ih =>
    cases rest with
    | nil =>
      cases ws' with
      | nil => exact absurd rfl h'
      | cons w2 ws'' => rfl
    | cons w2 rest' =>
      show w ++ sep :: joinSep sep ((w2 :: rest') ++ ws') = _
      rw [ih (List.cons_ne_nil _ _)]
      show w ++ sep :: (joinSep sep (w2 :: rest') ++ sep :: joinSep sep ws')
        = (w ++ sep :: joinSep sep (w2 :: rest')) ++ sep :: joinSep sep ws'
      simp

theorem splitCharList_ne_nil (sep : Char) (l : List Char) :
    splitCharList sep l ≠ [] := by
  cases l with
  | nil => simp [splitCharList]
  | cons c rest =>
    rw [splitCharList]
    cases hs : splitCharList sep rest with
    | nil =>
      by_cases hc : c = sep
      · simp [hc]
      · simp [hc]
    | cons w ws =>
      by_cases hc : c = sep
      · simp [hc]
      · simp [hc]

theorem splitCharList_append_sep (sep : Char) (x y : List Char) :
    splitCharList sep (x ++ sep :: y)
      = splitCharList sep x ++ splitCharList sep y := by
  induction x with
  | nil =>
    cases hs : splitCharList sep y with
    | nil => exact absurd hs (splitCharList_ne_nil sep y)
    | cons w ws =>
      show splitCharList sep (sep :: y) = [[]] ++ (w :: ws)
      simp only [splitCharList, hs]
      simp
  | cons c x' ih =>
    show splitCharList sep (c :: (x' ++ sep :: y)) = _
    rw [splitCharList, ih]
    cases hs : splitCharList sep x' with
    | nil => exact absurd hs (splitCharList_ne_nil sep x')
    | cons w ws =>
      by_cases hc : c = sep
      · subst hc
        simp [splitCharList, hs]
      · simp [splitCharList, hs, hc]

theorem splitCharList_no_sep {sep : Char} {l : List Char} (h : sep ∉ l) :
    splitCharList sep l = [l] := by
  induction l with
  | nil => rfl
  | cons c rest ih =>
    have hc : c ≠ sep := fun he => h (he ▸ List.mem_cons_self _ _)
    rw [splitCharList, ih (fun hm => h (List.mem_cons_of_mem _ hm))]
    simp [hc]

theorem mem_splitCharList_chars {sep : Char} {l w : List Char} {c : Char}
    (hw : w ∈ splitCharList sep l) (hc : c ∈ w) : c ∈ l ∧ c ≠ sep := by
  induction l generalizing w with
  | nil =>
    simp only [splitCharList, List.mem_singleton] at hw
    subst hw
    cases hc
  | cons d rest ih =>
    rw [splitCharList] at hw
    cases hs : splitCharList sep rest with
    | nil => exact absurd hs (splitCharList_ne_nil sep rest)
    | cons w0 ws =>
      rw [hs] at hw
      by_cases hd : d = sep
      · subst hd
        simp only [if_pos rfl] at hw
        rcases List.mem_cons.mp hw with rfl | hw
        · cases hc
        · have := ih (hs ▸ hw) hc
          exact ⟨List.mem_cons_of_mem _ this.1, this.2⟩
      · simp only [if_neg hd] at hw
        rcases List.mem_cons.mp hw with rfl | hw
        · rcases List.mem_cons.mp hc with rfl | hc2
          · exact ⟨List.mem_cons_self _ _, hd⟩
          · have := ih (hs ▸ List.mem_cons_self w0 ws) hc2
            exact ⟨List.mem_cons_of_mem _ this.1, this.2⟩
        · have := ih (hs ▸ List.mem_cons_of_mem w0 hw) hc
          exact ⟨List.mem_cons_of_mem _ this.1, this.2⟩

/-! ### Slug strings: fixed points of `normalize_slug` -/

theorem string_mk_data (s : String) : String.mk s.data = s := rfl

theorem string_eq_of_data {s t : String} (h : s.data = t.data) : s = t :=
  String.ext h

theorem string_ne_empty_iff_data {s : String} : s ≠ "" ↔ s.data ≠ [] := by
  constructor
  · intro h hd
    exact h (string_eq_of_data (by rw [hd]))
  · intro h he
    subst he
    exact h rfl

theorem map_slugMapChar_word {w : List Char} (hw : ∀ c ∈ w, isLowerAlnumChar c = true) :
    w.map slugMapChar = w := by
  induction w with
  | nil => rfl
  | cons c cs ih =>
    rw [List.map_cons, slugMapChar_fixed (hw c (List.mem_cons_self _ _)),
      ih (fun d hd => hw d (List.mem_cons_of_mem _ hd))]

theorem map_slugMapChar_joinSep {ws : List (List Char)}
    (hws : ∀ w ∈ ws, IsSlugWord w) :
    (joinSep '-' ws).map slugMapChar = joinSep ' ' ws := by
  induction ws with
  | nil => rfl
  | cons w rest ih =>
    cases rest with
    | nil =>
      show (joinSep '-' [w]).map slugMapChar = joinSep ' ' [w]
      exact map_slugMapChar_word (hws w (List.mem_cons_self _ _)).2
    | cons w2 rest' =>
      show (w ++ '-' :: joinSep '-' (w2 :: rest')).map slugMapChar = _
      rw [List.map_append, List.map_cons,
        map_slugMapChar_word (hws w (List.mem_cons_self _ _)).2,
        ih (fun v hv => hws v (List.mem_cons_of_mem _ hv))]
      have hm : slugMapChar '-' = ' ' := by decide
      rw [hm]
      rfl

theorem splitCharList_joinSep {sep : Char} {ws : List (List Char)} (hne : ws ≠ [])
    (hsep : ∀ w ∈ ws, sep ∉ w) :
    splitCharList sep (joinSep sep ws) = ws := by
  induction ws with
  | nil => exact absurd rfl hne
  | cons w rest ih =>
    cases rest with
    | nil =>
      show splitCharList sep w = [w]
      exact splitCharList_no_sep (hsep w (List.mem_cons_self _ _))
    | cons w2 rest' =>
      show splitCharList sep (w ++ sep :: joinSep sep (w2 :: rest')) = _
      rw [splitCharList_append_sep,
        splitCharList_no_sep (hsep w (List.mem_cons_self _ _)),
        ih (List.cons_ne_nil _ _) (fun v hv => hsep v (List.mem_cons_of_mem _ hv))]
      rfl

theorem normalize_slug_fixed {s : String} (h : IsSlugStr s) :
    normalize_slug s = s := by
  obtain ⟨ws, hne, hws, hdata⟩ := h
  unfold normalize_slug
  rw [hdata, map_slugMapChar_joinSep hws,
    splitCharList_joinSep hne
      (fun w hw hc => lowerAlnum_ne_space ((hws w hw).2 ' ' hc) rfl)]
  have hfil : ws.filter (fun w => !w.isEmpty) = ws := by
    rw [List.filter_eq_self]
    intro w hw
    cases hw2 : w with
    | nil => exact absurd hw2 (hws w hw).1
    | cons c cs => rfl
  rw [hfil, ← hdata]

theorem isSlugStr_of_normalize {t s : String} (h : normalize_slug t = s)
    (hne : s ≠ "") : IsSlugStr s := by
  refine ⟨(splitCharList ' ' (t.data.map slugMapChar)).filter (fun w => !w.isEmpty),
    ?_, ?_, ?_⟩
  · intro hempty
    rw [← h] at hne
    refine string_ne_empty_iff_data.mp hne ?_
    show (normalize_slug t).data = []
    unfold normalize_slug
    rw [hempty]
    rfl
  · intro w hw
    have hw1 : w ∈ splitCharList ' ' (t.data.map slugMapChar) :=
      List.mem_of_mem_filter hw
    have hw2 : w ≠ [] := by
      have := List.of_mem_filter hw
      cases hwe : w with
      | nil => rw [hwe] at this; cases this
      | cons c cs => exact List.cons_ne_nil _ _
    refine ⟨hw2, ?_⟩
    intro c hc
    obtain ⟨hcmem, hcne⟩ := mem_splitCharList_chars hw1 hc
    obtain ⟨c0, hc0mem, hc0⟩ := List.mem_map.mp hcmem
    unfold slugMapChar at hc0
    by_cases hal : c0.isAlphanum = true
    · rw [if_pos hal] at hc0
      rw [← hc0]
      exact lowerAlnum_toLower hal
    · rw [if_neg hal] at hc0
      exact absurd hc0.symm hcne
  · rw [← h]
    rfl

theorem isSlugStr_ne_empty {s : String} (h : IsSlugStr s) : s ≠ "" := by
  obtain ⟨ws, hne, hws, hdata⟩ := h
  refine string_ne_empty_iff_data.mpr ?_
  rw [hdata]
  exact joinSep_ne_nil hne (fun w hw => (hws w hw).1)

theorem isSlugStr_chars {s : String} (h : IsSlugStr s) :
    ∀ c ∈ s.data, isLowerAlnumChar c = true ∨ c = '-' := by
  obtain ⟨ws, hne, hws, hdata⟩ := h
  intro c hc
  rw [hdata] at hc
  rcases mem_joinSep hc with ⟨w, hw, hcw⟩ | hc2
  · exact Or.inl ((hws w hw).2 c hcw)
  · exact Or.inr hc2

theorem dropWhile_eq_self_of_false {p : Char → Bool} {l : List Char}
    (h : ∀ c ∈ l, p c = false) : l.dropWhile p = l := by
  cases l with
  | nil => rfl
  | cons c rest =>
    rw [List.dropWhile_cons, h c (List.mem_cons_self _ _)]
    simp

theorem pyStrip_eq_self {s : String} (h : ∀ c ∈ s.data, isPySpace c = false) :
    pyStrip s = s := by
  unfold pyStrip
  rw [dropWhile_eq_self_of_false h,
    dropWhile_eq_self_of_false (fun c hc => h c (List.mem_reverse.mp hc)),
    List.reverse_reverse]

theorem isSlugStr_pyStrip {s : String} (h : IsSlugStr s) : pyStrip s = s := by
  refine pyStrip_eq_self ?_
  intro c hc
  rcases isSlugStr_chars h c hc with h2 | h2
  · exact lowerAlnum_not_space h2
  · subst h2
    rfl

theorem isSlugStr_no_slash {s : String} (h : IsSlugStr s) : '/' ∉ s.data := by
  intro hc
  rcases isSlugStr_chars h _ hc with h2 | h2
  · exact lowerAlnum_ne_slash h2 rfl
  · cases h2

theorem isSlugStr_append_repr {s : String} (h : IsSlugStr s) (n : Nat) :
    IsSlugStr (s ++ "-" ++ Nat.repr n) := by
  obtain ⟨ws, hne, hws, hdata⟩ := h
  refine ⟨ws ++ [(Nat.repr n).data], by simp, ?_, ?_⟩
  · intro w hw
    rcases List.mem_append.mp hw with hw | hw
    · exact hws w hw
    · rw [List.mem_singleton] at hw
      subst hw
      exact ⟨repr_data_ne_nil n, repr_data_lowerAlnum n⟩
  · rw [String.data_append, String.data_append, hdata]
    rw [joinSep_append hne (by simp)]
    show (joinSep '-' ws ++ ['-']) ++ (Nat.repr n).data = _
    simp [joinSep]

/-! ### Namespaced key structure -/

theorem key_data (ns t : String) :
    (ns ++ "/" ++ t).data = ns.data ++ '/' :: t.data := by
  rw [String.data_append, String.data_append]
  show ns.data ++ ['/'] ++ t.data = _
  simp

theorem pyStartsWith_key (ns t : String) :
    pyStartsWith (ns ++ "/") (ns ++ "/" ++ t) = true := by
  unfold pyStartsWith
  rw [key_data, String.data_append]
  show (ns.data ++ ['/']).isPrefixOf (ns.data ++ '/' :: t.data) = true
  rw [List.isPrefixOf_iff_prefix]
  have : ns.data ++ '/' :: t.data = (ns.data ++ ['/']) ++ t.data := by simp
  rw [this]
  exact List.prefix_append _ _

theorem splitFirst_append {a b : List Char} (h : '/' ∉ a) :
    splitFirst '/' (a ++ '/' :: b) = (a, some b) := by
  induction a with
  | nil => rfl
  | cons c a' ih =>
    have hc : c ≠ '/' := fun he => h (he ▸ List.mem_cons_self _ _)
    show splitFirst '/' (c :: (a' ++ '/' :: b)) = _
    rw [splitFirst, if_neg hc, ih (fun hm => h (List.mem_cons_of_mem _ hm))]

theorem key_suffix_extract {ns t : String} (hns : '/' ∉ ns.data) :
    String.mk ((splitFirst '/' (ns ++ "/" ++ t).data).2.getD []) = t := by
  rw [key_data, splitFirst_append hns]
  rfl

theorem isSlugStr_key_strip {ns t : String} (h1 : IsSlugStr ns) (h2 : IsSlugStr t) :
    pyStrip (ns ++ "/" ++ t) = ns ++ "/" ++ t := by
  refine pyStrip_eq_self ?_
  intro c hc
  rw [key_data] at hc
  rcases List.mem_append.mp hc with hc | hc
  · rcases isSlugStr_chars h1 c hc with h3 | h3
    · exact lowerAlnum_not_space h3
    · subst h3
      rfl
  · rcases List.mem_cons.mp hc with rfl | hc
    · rfl
    · rcases isSlugStr_chars h2 c hc with h3 | h3
      · exact lowerAlnum_not_space h3
      · subst h3
        rfl

theorem isSlugStr_xblock (n : Nat) : IsSlugStr (String.mk (List.replicate (n + 1) 'x')) := by
  refine ⟨[List.replicate (n + 1) 'x'], by simp, ?_, rfl⟩
  intro w hw
  rw [List.mem_singleton] at hw
  subst hw
  refine ⟨by simp, ?_⟩
  intro c hc
  rw [List.eq_of_mem_replicate hc]
  decide

theorem stableKeyLoop_form (ns suffix : String) (seen : List String)
    (hsuf : IsSlugStr suffix) :
    ∀ fuel counter, ∃ t, stableKeyLoop ns suffix seen fuel counter = ns ++ "/" ++ t ∧
      IsSlugStr t := by
  intro fuel
  induction fuel with
  | zero =>
    intro counter
    exact ⟨_, rfl, isSlugStr_xblock _⟩
  | succ fuel ih =>
    intro counter
    rw [stableKeyLoop]
    cases hc : seen.contains
        (ns ++ "/" ++ (if counter == 1 then suffix else suffix ++ "-" ++ Nat.repr counter)) with
    | true =>
      rw [if_pos rfl]
      exact ih (counter + 1)
    | false =>
      rw [if_neg (by decide)]
      by_cases h1 : (counter == 1) = true
      · rw [if_pos h1]
        exact ⟨suffix, rfl, hsuf⟩
      · rw [if_neg h1]
        exact ⟨_, rfl, isSlugStr_append_repr hsuf counter⟩

theorem stable_command_key_form (ns raw : String) (seen : List String) :
    ∃ t, _stable_command_key ns raw seen = ns ++ "/" ++ t ∧ IsSlugStr t := by
  unfold _stable_command_key
  by_cases h : normalize_slug raw = ""
  · rw [if_pos h]
    refine stableKeyLoop_form ns "command" seen ?_ _ 1
    refine ⟨[['c', 'o', 'm', 'm', 'a', 'n', 'd']], by simp, ?_, rfl⟩
    intro w hw
    rw [List.mem_singleton] at hw
    subst hw
    exact ⟨by decide, by decide⟩
  · rw [if_neg h]
    exact stableKeyLoop_form ns (normalize_slug raw) seen
      (isSlugStr_of_normalize rfl h) _ 1

theorem stableKeyLoop_first_free {ns suffix : String} {seen : List String}
    (h : seen.contains (ns ++ "/" ++ suffix) = false) (fuel : Nat) :
    stableKeyLoop ns suffix seen (fuel + 1) 1 = ns ++ "/" ++ suffix := by
  rw [stableKeyLoop]
  have h1 : ((1 : Nat) == 1) = true := by decide
  rw [if_pos h1]
  rw [h]
  rw [if_neg (by decide)]

theorem stable_command_key_fixed {ns t : String} {seen : List String}
    (ht : IsSlugStr t) (hfree : (ns ++ "/" ++ t) ∉ seen) :
    _stable_command_key ns t seen = ns ++ "/" ++ t := by
  unfold _stable_command_key
  rw [if_neg (fun he => isSlugStr_ne_empty ht (by rw [← normalize_slug_fixed ht]; exact he))]
  rw [normalize_slug_fixed ht]
  refine stableKeyLoop_first_free ?_ _
  cases hc : seen.contains (ns ++ "/" ++ t) with
  | false => rfl
  | true => exact absurd ((contains_iff_mem_strlist _ _).mp hc) hfree

theorem migratedKeyFor_fixed {ns t : String} {seen : List String}
    (hns : IsSlugStr ns) (ht : IsSlugStr t) (hfree : (ns ++ "/" ++ t) ∉ seen) :
    migratedKeyFor ns (ns ++ "/" ++ t) seen = ns ++ "/" ++ t ∧
    keyChanged ns (ns ++ "/" ++ t) seen = false := by
  have hstrip := isSlugStr_key_strip hns ht
  have hstart : pyStartsWith (ns ++ "/") (pyStrip (ns ++ "/" ++ t)) = true := by
    rw [hstrip]
    exact pyStartsWith_key ns t
  have hkey : migratedKeyFor ns (ns ++ "/" ++ t) seen = ns ++ "/" ++ t := by
    unfold migratedKeyFor
    rw [if_pos hstart, hstrip, key_suffix_extract (isSlugStr_no_slash hns)]
    exact stable_command_key_fixed ht hfree
  refine ⟨hkey, ?_⟩
  unfold keyChanged
  rw [if_pos hstart, hkey, hstrip]
  simp

/-! ### Reprocessing already-migrated commands is the identity -/

theorem objSet_entry_cases {kvs : List (String × JValue)} {k : String} {v : JValue}
    {kv : String × JValue} (h : kv ∈ objSet kvs k v) : kv ∈ kvs ∨ kv = (k, v) := by
  induction kvs with
  | nil =>
    simp only [objSet, List.mem_singleton] at h
    exact Or.inr h
  | cons p rest ih =>
    obtain ⟨k', v'⟩ := p
    by_cases hk : k' = k
    · subst hk
      simp only [objSet, if_pos rfl] at h
      rcases List.mem_cons.mp h with rfl | h
      · exact Or.inr rfl
      · exact Or.inl (List.mem_cons_of_mem _ h)
    · simp only [objSet, if_neg hk] at h
      rcases List.mem_cons.mp h with rfl | h
      · exact Or.inl (List.mem_cons_self _ _)
      · rcases ih h with h2 | h2
        · exact Or.inl (List.mem_cons_of_mem _ h2)
        · exact Or.inr h2

theorem objSet_length_ge (kvs : List (String × JValue)) (k : String) (v : JValue) :
    kvs.length ≤ (objSet kvs k v).length := by
  induction kvs with
  | nil => simp [objSet]
  | cons p rest ih =>
    obtain ⟨k', v'⟩ := p
    by_cases hk : k' = k
    · simp [objSet, hk]
    · simp only [objSet, if_neg hk, List.length_cons]
      omega

theorem migrateCommands_length_ge {ns : String} {cmds : List (String × JValue)} :
    ∀ {seen : List String} {migrated res : List (String × JValue)} {ch0 ch : Bool},
      migrateCommands ns cmds seen migrated ch0 = .ok (res, ch) →
      migrated.length ≤ res.length := by
  induction cmds with
  | nil =>
    intro seen migrated res ch0 ch h
    simp only [migrateCommands] at h
    cases h
    exact le_refl _
  | cons kv rest ih =>
    intro seen migrated res ch0 ch h
    obtain ⟨key, v⟩ := kv
    cases v with
    | str p =>
      simp only [migrateCommands] at h
      exact le_trans (objSet_length_ge _ _ _) (ih h)
    | null => simp [migrateCommands] at h
    | bool b => simp [migrateCommands] at h
    | int n => simp [migrateCommands] at h
    | list xs => simp [migrateCommands] at h
    | obj kvs => simp [migrateCommands] at h

theorem migrateCommands_form {ns : String} {cmds : List (String × JValue)} :
    ∀ {seen : List String} {migrated res : List (String × JValue)} {ch0 ch : Bool},
      migrateCommands ns cmds seen migrated ch0 = .ok (res, ch) →
      (∀ kv ∈ migrated, (∃ t, kv.1 = ns ++ "/" ++ t ∧ IsSlugStr t) ∧ ∃ p, kv.2 = .str p) →
      ∀ kv ∈ res, (∃ t, kv.1 = ns ++ "/" ++ t ∧ IsSlugStr t) ∧ ∃ p, kv.2 = .str p := by
  induction cmds with
  | nil =>
    intro seen migrated res ch0 ch h hmig
    simp only [migrateCommands] at h
    cases h
    exact hmig
  | cons kv0 rest ih =>
    intro seen migrated res ch0 ch h hmig
    obtain ⟨key, v⟩ := kv0
    cases v with
    | str p =>
      simp only [migrateCommands] at h
      refine ih h ?_
      intro kv hkv
      rcases objSet_entry_cases hkv with hkv | hkv
      · exact hmig kv hkv
      · subst hkv
        refine ⟨?_, ⟨p, rfl⟩⟩
        show ∃ t, migratedKeyFor ns key seen = ns ++ "/" ++ t ∧ IsSlugStr t
        unfold migratedKeyFor
        by_cases hst : pyStartsWith (ns ++ "/") (pyStrip key) = true
        · rw [if_pos hst]
          exact stable_command_key_form ns _ seen
        · rw [if_neg hst]
          exact stable_command_key_form ns _ seen
    | null => simp [migrateCommands] at h
    | bool b => simp [migrateCommands] at h
    | int n => simp [migrateCommands] at h
    | list xs => simp [migrateCommands] at h
    | obj kvs => simp [migrateCommands] at h

theorem migrateCommands_reprocess {ns : String} (hns : IsSlugStr ns)
    {cmds : List (String × JValue)} :
    ∀ {seen : List String} {migrated : List (String × JValue)} {ch0 : Bool},
      (∀ kv ∈ cmds, (∃ t, kv.1 = ns ++ "/" ++ t ∧ IsSlugStr t) ∧ ∃ p, kv.2 = .str p) →
      (cmds.map Prod.fst).Nodup →
      (∀ k ∈ cmds.map Prod.fst, k ∉ seen) →
      (∀ k ∈ cmds.map Prod.fst, k ∉ migrated.map Prod.fst) →
      migrateCommands ns cmds seen migrated ch0 = .ok (migrated ++ cmds, ch0) := by
  induction cmds with
  | nil =>
    intro seen migrated ch0 hform hnd hseen hmig
    simp [migrateCommands]
  | cons kv0 rest ih =>
    intro seen migrated ch0 hform hnd hseen hmig
    obtain ⟨key, v⟩ := kv0
    obtain ⟨⟨t, hkey, ht⟩, p, hv⟩ := hform (key, v) (List.mem_cons_self _ _)
    simp only at hkey hv
    subst hv
    have hkmem : key ∈ (((key, JValue.str p) :: rest).map Prod.fst) := by
      simp
    have hfree : (ns ++ "/" ++ t) ∉ seen := by
      rw [← hkey]
      exact hseen key hkmem
    have hmk := migratedKeyFor_fixed hns ht hfree
    rw [← hkey] at hmk
    simp only [migrateCommands, hmk.1, hmk.2, Bool.or_false]
    rw [objSet_eq_append (hmig key hkmem)]
    have hrest : migrateCommands ns rest (key :: seen) (migrated ++ [(key, JValue.str p)]) ch0
        = .ok ((migrated ++ [(key, JValue.str p)]) ++ rest, ch0) := by
      refine ih ?_ ?_ ?_ ?_
      · intro kv hkv
        exact hform kv (List.mem_cons_of_mem _ hkv)
      · exact (List.nodup_cons.mp (by simpa using hnd)).2
      · intro k hk
        intro hmem
        rcases List.mem_cons.mp hmem with rfl | hmem
        · exact (List.nodup_cons.mp (by simpa using hnd)).1 hk
        · exact hseen k (List.mem_cons_of_mem _ (by simpa using hk)) hmem
      · intro k hk
        rw [List.map_append]
        intro hmem
        rcases List.mem_append.mp hmem with hmem | hmem
        · exact hmig k (List.mem_cons_of_mem _ (by simpa using hk)) hmem
        · simp only [List.map_cons, List.map_nil, List.mem_singleton] at hmem
          subst hmem
          exact (List.nodup_cons.mp (by simpa using hnd)).1 hk
    rw [hrest]
    simp

/-! ### Second-run invariants of the migrated manifest -/

theorem derivedNamespace_migratedManifest (kvs : List (String × JValue))
    (ns : String) (migrated : List (String × JValue)) :
    derivedNamespace (migratedManifest (.obj kvs) ns migrated)
      = derivedNamespace (.obj kvs) := by
  unfold derivedNamespace extensionNameOf
  rw [jGetD_migratedManifest_name ns migrated (by decide) (by decide)]

theorem contractValid_migratedManifest {ns : String} (kvs : List (String × JValue))
    (migrated : List (String × JValue)) (hns : IsSlugStr ns) :
    contractValid (migratedManifest (.obj kvs) ns migrated) ns = true := by
  unfold contractValid
  rw [jGetD_migratedManifest_contract]
  have h1 : objGet [("version", JValue.int 1), ("namespace", JValue.str ns)] "version"
      = some (.int 1) := rfl
  have h2 : objGet [("version", JValue.int 1), ("namespace", JValue.str ns)] "namespace"
      = some (.str ns) := by
    simp [objGet]
  simp only [h1, h2, Option.getD_some]
  rw [show jStr (JValue.str ns) = ns from rfl, isSlugStr_pyStrip hns]
  simp [jEqOne]

/-- C7: a migration run on an extension manifest whose command keys are all
already correctly namespaced under the slug derived from `name` (with the
keys duplicate-free, as Python dicts guarantee) and which carries a
`command_contract` record valid for that namespace returns the manifest
unchanged with `changed = false`; consequently running the migrator on the
output of any successful migration is a no-op. -/
theorem C7_migration_idempotent :
    (∀ (manifest u : JValue) (commands : List (String × JValue)),
      jGetD manifest "commands" = .obj commands →
      derivedNamespace manifest ≠ "" →
      (∀ kv ∈ commands,
        (∃ t, kv.1 = derivedNamespace manifest ++ "/" ++ t ∧ IsSlugStr t) ∧
        ∃ p, kv.2 = .str p) →
      (commands.map Prod.fst).Nodup →
      contractValid manifest (derivedNamespace manifest) = true →
      validate_extension_manifest manifest "migrated extension manifest" = .ok u →
      _migrate_extension_manifest manifest = .ok (manifest, false)) ∧
    (∀ (manifest m' : JValue) (ch : Bool),
      _migrate_extension_manifest manifest = .ok (m', ch) →
      _migrate_extension_manifest m' = .ok (m', false)) := by
  have ha : ∀ (manifest u : JValue) (commands : List (String × JValue)),
      jGetD manifest "commands" = .obj commands →
      derivedNamespace manifest ≠ "" →
      (∀ kv ∈ commands,
        (∃ t, kv.1 = derivedNamespace manifest ++ "/" ++ t ∧ IsSlugStr t) ∧
        ∃ p, kv.2 = .str p) →
      (commands.map Prod.fst).Nodup →
      contractValid manifest (derivedNamespace manifest) = true →
      validate_extension_manifest manifest "migrated extension manifest" = .ok u →
      _migrate_extension_manifest manifest = .ok (manifest, false) := by
    intro manifest u commands hcm hnsne hform hnd hcv hval
    have hns_slug : IsSlugStr (derivedNamespace manifest) :=
      isSlugStr_of_normalize rfl hnsne
    have hrepro : migrateCommands (derivedNamespace manifest) commands [] [] false
        = .ok (commands, false) :=
      migrateCommands_reprocess hns_slug hform hnd
        (fun k _ => List.not_mem_nil k) (fun k _ => List.not_mem_nil k)
    suffices hgen : ∀ res, _migrate_extension_manifest manifest = res →
        res = Except.ok (manifest, false) by
      exact hgen _ rfl
    intro res h
    unfold _migrate_extension_manifest at h
    split at h
    · rename_i cmds hcm2
      rw [hcm] at hcm2
      cases hcm2
      split at h
      · exact h.symm
      · split at h
        · rename_i e hmc
          rw [hrepro] at hmc
          cases hmc
        · rename_i migrated changed hmc
          rw [hrepro] at hmc
          cases hmc
          split at h
          · rename_i hcond
            rw [hcv] at hcond
            simp at hcond
          · split at h
            · rename_i e hv
              rw [hval] at hv
              cases hv
            · exact h.symm
    · exact h.symm
  refine ⟨ha, ?_⟩
  intro manifest m' ch h
  have h0 := h
  unfold _migrate_extension_manifest at h
  split at h
  · rename_i commands hcm
    obtain ⟨kvs, hobj⟩ := jGetD_obj_implies_obj hcm
    split at h
    · cases h
      exact h0
    · split at h
      · cases h
      · rename_i hnsne2
        split at h
        · cases h
        · rename_i migrated changed hmc
          split at h
          · split at h
            · cases h
            · rename_i uu hval
              cases h
              subst hobj
              have hdn := derivedNamespace_migratedManifest kvs
                (derivedNamespace (.obj kvs)) migrated
              have hns_slug : IsSlugStr (derivedNamespace (JValue.obj kvs)) :=
                isSlugStr_of_normalize rfl hnsne2
              refine ha _ uu migrated (jGetD_migratedManifest_commands _ _) ?_ ?_ ?_ ?_ hval
              · rw [hdn]
                exact hnsne2
              · intro kv hkv
                rw [hdn]
                exact migrateCommands_form hmc
                  (fun kv2 hkv2 => absurd hkv2 (List.not_mem_nil kv2)) kv hkv
              · exact migrateCommands_nodup hmc (by simp) (by simp)
              · rw [hdn]
                exact contractValid_migratedManifest kvs migrated hns_slug
          · rename_i hcond
            have hchf : changed = false := by
              cases hc2 : changed
              · rfl
              · exact absurd (by rw [hc2]; simp) hcond
            subst hchf
            split at h
            · cases h
            · cases h
              exact h0
  · cases h
    exact h0

/-- Witness for C7: the no-change statement instantiated at the concrete
already-migrated manifest, every hypothesis discharged by evaluation. -/
theorem C7_migration_idempotent_witness :
    _migrate_extension_manifest egCollidingMigrated
      = .ok (egCollidingMigrated, false) := by
  have hslug1 : IsSlugStr "doctor-run" := by
    refine ⟨[['d','o','c','t','o','r'], ['r','u','n']], by decide, ?_, by decide⟩
    intro w hw
    rcases List.mem_cons.mp hw with rfl | hw
    · exact ⟨by decide, by decide⟩
    · rcases List.mem_cons.mp hw with rfl | hw
      · exact ⟨by decide, by decide⟩
      · cases hw
  have hslug2 : IsSlugStr "doctor-run-2" := by
    refine ⟨[['d','o','c','t','o','r'], ['r','u','n'], ['2']], by decide, ?_, by decide⟩
    intro w hw
    rcases List.mem_cons.mp hw with rfl | hw
    · exact ⟨by decide, by decide⟩
    · rcases List.mem_cons.mp hw with rfl | hw
      · exact ⟨by decide, by decide⟩
      · rcases List.mem_cons.mp hw with rfl | hw
        · exact ⟨by decide, by decide⟩
        · cases hw
  refine C7_migration_idempotent.1 egCollidingMigrated egCollidingMigrated
    [("ns/doctor-run", JValue.str "a.py"), ("ns/doctor-run-2", JValue.str "b.py")]
    rfl (by decide) ?_ (by decide) rfl rfl
  intro kv hkv
  rcases List.mem_cons.mp hkv with rfl | hkv
  · exact ⟨⟨"doctor-run", by decide, hslug1⟩, "a.py", rfl⟩
  · rcases List.mem_cons.mp hkv with rfl | hkv
    · exact ⟨⟨"doctor-run-2", by decide, hslug2⟩, "b.py", rfl⟩
    · cases hkv
